import Mathlib

/-!
Verification of the Money-Notes analytics engine.

The definitions below are a shallow embedding of the data-processing code of
the repository (src/unnamed/part_000 = `types.ts` + `App.tsx`,
`src/AnalyticsModal.tsx`, `src/src/PriceWatchModal.tsx`).  JavaScript numbers
holding money amounts are modelled as exact rationals (`ℚ`); JavaScript
strings are modelled through their character lists (all strings involved are
made of basic-plane characters, where JavaScript's UTF-16 code-unit indexing
coincides with character indexing).  JS `Map`s and plain objects used as
accumulators preserve insertion order for the (non-numeric) keys used here,
so they are modelled as association lists that append new keys at the end.
`Array.prototype.sort` with a consistent comparator is stable, hence it is
modelled by a stable insertion sort.
-/

namespace MoneyNotes

/-! ## Models of the JavaScript string primitives used by the code -/

/-- `s.substring(0, n)` (JS counts UTF-16 code units; on the basic-plane
strings used here that is character counting). -/
def substrTo (n : ℕ) (s : String) : String := ⟨s.data.take n⟩

/-- `s.startsWith(p)`. -/
def jsStartsWith (s p : String) : Bool := p.data.isPrefixOf s.data

/-- `s.trim()`: strip leading and trailing whitespace. -/
def jsTrim (s : String) : String :=
  ⟨((s.data.dropWhile Char.isWhitespace).reverse.dropWhile Char.isWhitespace).reverse⟩

/-- `s || d` on strings: the empty string is falsy. -/
def strOr (s d : String) : String := if s = "" then d else s

/-- Strict lexicographic comparison of character lists; `String.localeCompare`
on the pure-ASCII month keys compared by the code orders them this way. -/
def lexLt : List Char → List Char → Bool
  | [], [] => false
  | [], _ :: _ => true
  | _ :: _, [] => false
  | a :: as, b :: bs => if a < b then true else if b < a then false else lexLt as bs

/-- `a.localeCompare(b) <= 0` on the ASCII keys used by the code. -/
def strLe (a b : String) : Bool := !(lexLt b.data a.data)

/-! ## The data model (`types.ts`) -/

/-- `ReceiptItem` of `types.ts`. -/
structure ReceiptItem where
  name : String
  price : ℚ
  quantity : Option ℕ := none
deriving DecidableEq, Repr

/-- `Transaction` of `types.ts`.  `type` is kept as a raw string because the
code only ever tests `t.type === 'income'` (legacy records may carry anything
else, which the code treats as an expense). -/
structure Transaction where
  id : String
  type : String
  amountAUD : ℚ
  amountTWD : ℚ
  category : String
  date : String
  note : String
  items : Option (List ReceiptItem) := none
  tax : Option ℚ := none
  superannuation : Option ℚ := none
deriving DecidableEq, Repr

/-- The closed expense-category enumeration (`Category` of `types.ts`). -/
def expenseCategories : List String :=
  ["房租住宿", "超市雜貨", "外食咖啡", "大眾交通", "養車油資", "電費", "水費",
   "天然氣", "家用網路", "手機通訊", "購物治裝", "娛樂訂閱", "醫療保險",
   "教育簽證", "貸款還款", "寵物毛孩", "旅遊度假", "其他雜項"]

/-- The closed income-category enumeration (`IncomeCategory` of `types.ts`). -/
def incomeCategories : List String :=
  ["正職薪資", "兼職打工", "年度退稅", "獎金紅包", "投資理財", "二手拍賣", "其他收入"]

/-! ## A stable insertion sort, modelling `Array.prototype.sort`

`le a b` means "the comparator does not require `b` strictly before `a`",
i.e. `cmp(a, b) <= 0`; with a consistent comparator the stable-sort output is
uniquely determined, so any stable sort is a faithful model. -/

/-- Insert `a` into `l` before the first element the comparator places
strictly after `a`; `a` stems from earlier in the input than all of `l`. -/
def insertS (le : α → α → Bool) (a : α) : List α → List α
  | [] => [a]
  | b :: l => if le a b then a :: b :: l else b :: insertS le a l

/-- Stable sort by the boolean relation `le`. -/
def sortS (le : α → α → Bool) : List α → List α
  | [] => []
  | a :: l => insertS le a (sortS le l)

theorem insertS_perm (le : α → α → Bool) (a : α) (l : List α) :
    List.Perm (insertS le a l) (a :: l) := by
  induction l with
  | nil => simp [insertS]
  | cons b l ih =>
    by_cases h : le a b = true
    · simp [insertS, h]
    · simp only [insertS, h, if_false]
      exact List.Perm.trans (ih.cons b) (List.Perm.swap a b l)

theorem sortS_perm (le : α → α → Bool) (l : List α) : List.Perm (sortS le l) l := by
  induction l with
  | nil => simp [sortS]
  | cons a l ih => exact (insertS_perm le a (sortS le l)).trans (ih.cons a)

theorem mem_sortS (le : α → α → Bool) (l : List α) (x : α) :
    x ∈ sortS le l ↔ x ∈ l :=
  (sortS_perm le l).mem_iff

theorem sortS_map_sum (le : α → α → Bool) (f : α → ℚ) (l : List α) :
    ((sortS le l).map f).sum = (l.map f).sum :=
  ((sortS_perm le l).map f).sum_eq

theorem mem_insertS (le : α → α → Bool) (a : α) (l : List α) (x : α) :
    x ∈ insertS le a l ↔ x = a ∨ x ∈ l := by
  rw [(insertS_perm le a l).mem_iff]; simp

theorem insertS_pairwise (le : α → α → Bool)
    (htot : ∀ a b, le a b = false → le b a = true)
    (htrans : ∀ a b c, le a b = true → le b c = true → le a c = true)
    (a : α) (l : List α) (h : l.Pairwise (fun x y => le x y = true)) :
    (insertS le a l).Pairwise (fun x y => le x y = true) := by
  induction l with
  | nil => simp [insertS]
  | cons b l ih =>
    rcases List.pairwise_cons.mp h with ⟨hb, hl⟩
    by_cases hab : le a b = true
    · simp only [insertS, hab, if_true]
      refine List.pairwise_cons.mpr ⟨?_, h⟩
      intro x hx
      rcases List.mem_cons.mp hx with rfl | hx
      · exact hab
      · exact htrans a b x hab (hb x hx)
    · simp only [insertS, hab, if_false]
      refine List.pairwise_cons.mpr ⟨?_, ih hl⟩
      intro x hx
      rcases (mem_insertS le a l x).mp hx with hxa | hx
      · cases hxa; exact htot a b (Bool.eq_false_iff.mpr hab)
      · exact hb x hx

theorem sortS_pairwise (le : α → α → Bool)
    (htot : ∀ a b, le a b = false → le b a = true)
    (htrans : ∀ a b c, le a b = true → le b c = true → le a c = true)
    (l : List α) :
    (sortS le l).Pairwise (fun x y => le x y = true) := by
  induction l with
  | nil => simp [sortS]
  | cons a l ih => exact insertS_pairwise le htot htrans a (sortS le l) ih

theorem insertS_filter (le : α → α → Bool) (p : α → Bool)
    (hno : ∀ a b, le a b = false → ¬(p a = true ∧ p b = true))
    (a : α) (l : List α) :
    (insertS le a l).filter p = if p a then a :: l.filter p else l.filter p := by
  induction l with
  | nil => by_cases h : p a = true <;> simp [insertS, List.filter, h]
  | cons b l ih =>
    by_cases hab : le a b = true
    · by_cases h : p a = true <;> simp [insertS, hab, List.filter, h]
    · have hnb := hno a b (Bool.eq_false_iff.mpr hab)
      simp only [insertS, hab, if_false]
      by_cases hpb : p b = true
      · have hpa : ¬(p a = true) := fun hpa => hnb ⟨hpa, hpb⟩
        simp [List.filter_cons, hpb, ih, hpa]
      · simp [List.filter_cons, hpb, ih]

/-- Stability of the sort: the subsequence of entries inside one
comparator-equivalence class is untouched. -/
theorem sortS_filter (le : α → α → Bool) (p : α → Bool)
    (hno : ∀ a b, le a b = false → ¬(p a = true ∧ p b = true))
    (l : List α) :
    (sortS le l).filter p = l.filter p := by
  induction l with
  | nil => simp [sortS]
  | cons a l ih =>
    rw [sortS, insertS_filter le p hno, ih]
    by_cases h : p a = true <;> simp [List.filter_cons, h]

/-! ## Association lists modelling insertion-ordered JS `Map`s / objects -/

/-- First value stored under key `k` (JS `map.get(k)` / `obj[k]`). -/
def lookupA : List (String × β) → String → Option β
  | [], _ => none
  | (k', v) :: m, k => if k' = k then some v else lookupA m k

/-- `map.get(k)` defaulted to `0` — JS `(map.get(k) || 0)`. -/
def lookupQ (m : List (String × ℚ)) (k : String) : ℚ := (lookupA m k).getD 0

/-- `map.set(k, (map.get(k) || 0) + v)`: add `v` under `k`, appending the key
at the end on first sight (JS `Map`s and string-keyed objects preserve
insertion order). -/
def bump (k : String) (v : ℚ) : List (String × ℚ) → List (String × ℚ)
  | [] => [(k, v)]
  | (k', v') :: m => if k' = k then (k', v' + v) :: m else (k', v') :: bump k v m

theorem lookupQ_bump (k : String) (v : ℚ) (m : List (String × ℚ)) (k' : String) :
    lookupQ (bump k v m) k' = lookupQ m k' + if k' = k then v else 0 := by
  induction m with
  | nil =>
    simp only [bump, lookupQ, lookupA]
    by_cases h : k = k'
    · subst h; simp
    · have h' : ¬(k' = k) := fun hh => h hh.symm
      simp [h, h']
  | cons p m ih =>
    obtain ⟨k₀, v₀⟩ := p
    simp only [bump]
    by_cases h0 : k₀ = k
    · subst h0
      simp only [if_pos rfl, lookupQ, lookupA]
      by_cases h1 : k₀ = k'
      · subst h1; simp
      · have h1' : ¬(k' = k₀) := fun hh => h1 hh.symm
        simp [h1, h1']
    · simp only [if_neg h0, lookupQ, lookupA]
      by_cases h1 : k₀ = k'
      · subst h1
        have h2 : ¬(k₀ = k) := h0
        simp [h2]
      · simp only [if_neg h1]
        exact ih

theorem keys_bump (k : String) (v : ℚ) (m : List (String × ℚ)) (k' : String) :
    k' ∈ (bump k v m).map Prod.fst ↔ k' = k ∨ k' ∈ m.map Prod.fst := by
  induction m with
  | nil => simp [bump]
  | cons p m ih =>
    obtain ⟨k₀, v₀⟩ := p
    by_cases h0 : k₀ = k
    · subst h0; simp [bump]
    · simp [bump, h0, ih]; tauto

/-- Total of all stored values. -/
def sumValues (m : List (String × ℚ)) : ℚ := (m.map Prod.snd).sum

theorem sumValues_bump (k : String) (v : ℚ) (m : List (String × ℚ)) :
    sumValues (bump k v m) = sumValues m + v := by
  induction m with
  | nil => simp [bump, sumValues]
  | cons p m ih =>
    obtain ⟨k₀, v₀⟩ := p
    by_cases h0 : k₀ = k
    · subst h0; simp [bump, sumValues]; ring
    · simp only [bump, h0, if_false, sumValues, List.map_cons, List.sum_cons]
      simp only [sumValues] at ih
      rw [ih]; ring

theorem lookupQ_nonneg (m : List (String × ℚ)) (k : String)
    (h : ∀ p ∈ m, 0 ≤ p.2) : 0 ≤ lookupQ m k := by
  induction m with
  | nil => simp [lookupQ, lookupA]
  | cons p m ih =>
    obtain ⟨k₀, v₀⟩ := p
    by_cases h0 : k₀ = k
    · subst h0; simpa [lookupQ, lookupA] using h (k₀, v₀) (List.mem_cons_self _ _)
    · simp only [lookupQ, lookupA, h0, if_false]
      exact ih fun p hp => h p (List.mem_cons_of_mem _ hp)

theorem bump_forall_values (k : String) (v : ℚ) (m : List (String × ℚ))
    (P : ℚ → Prop) (hm : ∀ p ∈ m, P p.2) (hv : ∀ x, P x → P (x + v)) (h0 : P (0 + v)) :
    ∀ p ∈ bump k v m, P p.2 := by
  induction m with
  | nil => simpa [bump] using h0
  | cons q m ih =>
    obtain ⟨k₀, v₀⟩ := q
    by_cases hk : k₀ = k
    · subst hk
      intro p hp
      rcases List.mem_cons.mp (by simpa [bump] using hp) with rfl | hp'
      · exact hv v₀ (hm (k₀, v₀) (List.mem_cons_self _ _))
      · exact hm p (List.mem_cons_of_mem _ hp')
    · intro p hp
      rcases List.mem_cons.mp (by simpa [bump, hk] using hp) with rfl | hp'
      · exact hm (k₀, v₀) (List.mem_cons_self _ _)
      · exact ih (fun q hq => hm q (List.mem_cons_of_mem _ hq)) p hp'

/-- In a duplicate-free association list a stored pair is what lookup finds. -/
theorem lookupA_of_mem_nodup (m : List (String × β)) (k : String) (v : β)
    (hnd : (m.map Prod.fst).Nodup) (hm : (k, v) ∈ m) : lookupA m k = some v := by
  induction m with
  | nil => cases hm
  | cons p m ih =>
    obtain ⟨k₀, v₀⟩ := p
    simp only [List.map_cons, List.nodup_cons] at hnd
    rcases List.mem_cons.mp hm with heq | hm'
    · cases heq; simp [lookupA]
    · have hk : k₀ ≠ k := by
        intro h; subst h
        exact hnd.1 (List.mem_map.mpr ⟨(k₀, v), hm', rfl⟩)
      simp [lookupA, hk, ih hnd.2 hm']

theorem nodup_keys_bump (k : String) (v : ℚ) (m : List (String × ℚ))
    (h : (m.map Prod.fst).Nodup) : ((bump k v m).map Prod.fst).Nodup := by
  induction m with
  | nil => simp [bump]
  | cons p m ih =>
    obtain ⟨k₀, v₀⟩ := p
    simp only [List.map_cons, List.nodup_cons] at h
    by_cases h0 : k₀ = k
    · subst h0; simp [bump, h.1, h.2]
    · simp only [bump, h0, if_false, List.map_cons]
      refine List.nodup_cons.mpr ⟨?_, ih h.2⟩
      intro hmem
      rcases (keys_bump k v m k₀).mp hmem with h' | h'
      · exact h0 h'
      · exact h.1 h'

/-! ## TotalsCalculator (`App.tsx` lines 206-213) -/

/-- `transactions.filter(t => t.type === 'income')`. -/
def incomeTransactions (txs : List Transaction) : List Transaction :=
  txs.filter fun t => decide (t.type = "income")

/-- `transactions.filter(t => t.type !== 'income')` (legacy records without a
proper type fall into the expense side). -/
def expenseTransactions (txs : List Transaction) : List Transaction :=
  txs.filter fun t => !(decide (t.type = "income"))

/-- `incomeTransactions.reduce((sum, t) => sum + t.amountAUD, 0)`. -/
def totalIncomeAUD (txs : List Transaction) : ℚ :=
  (incomeTransactions txs).foldl (fun sum t => sum + t.amountAUD) 0

/-- `expenseTransactions.reduce((sum, t) => sum + t.amountAUD, 0)`. -/
def totalExpenseAUD (txs : List Transaction) : ℚ :=
  (expenseTransactions txs).foldl (fun sum t => sum + t.amountAUD) 0

/-- `netAssetsAUD = totalIncomeAUD - totalExpenseAUD`. -/
def netAssetsAUD (txs : List Transaction) : ℚ := totalIncomeAUD txs - totalExpenseAUD txs

/-! ## MonthlyHistory (`App.tsx` lines 237-261) -/

/-- The per-month accumulator `{ income, expense }`. -/
structure MonthAgg where
  income : ℚ
  expense : ℚ
deriving DecidableEq, Repr

/-- The loop body: add the transaction to the income or expense side. -/
def addToAgg (t : Transaction) (a : MonthAgg) : MonthAgg :=
  if t.type = "income" then { a with income := a.income + t.amountAUD }
  else { a with expense := a.expense + t.amountAUD }

/-- `if (!map.has(key)) map.set(key, {income: 0, expense: 0}); …` — update the
month's entry in place, creating it at the end of the map on first sight. -/
def upsertMonth (k : String) (t : Transaction) :
    List (String × MonthAgg) → List (String × MonthAgg)
  | [] => [(k, addToAgg t ⟨0, 0⟩)]
  | (k', a) :: m => if k' = k then (k', addToAgg t a) :: m else (k', a) :: upsertMonth k t m

/-- The populated month map: the month key is `t.date.substring(0, 7)`. -/
def monthlyHistoryMap (txs : List Transaction) : List (String × MonthAgg) :=
  txs.foldl (fun m t => upsertMonth (substrTo 7 t.date) t m) []

/-- An output row `{month, income, expense, net}`. -/
structure MonthRow where
  month : String
  income : ℚ
  expense : ℚ
  net : ℚ
deriving DecidableEq, Repr

/-- `monthlyHistory`: month map, sorted descending by month key
(`b[0].localeCompare(a[0])`), with `net = income - expense` derived. -/
def monthlyHistory (txs : List Transaction) : List MonthRow :=
  (sortS (fun a b => strLe b.1 a.1) (monthlyHistoryMap txs)).map fun p =>
    ⟨p.1, p.2.income, p.2.expense, p.2.income - p.2.expense⟩

/-! ## BudgetStatus (`App.tsx` lines 264-288)

In the source the current month key is produced inside the computation from
the wall clock (`new Date().toISOString().substring(0, 7)`); it is made an
explicit parameter `currentMonthKey` here so that the dependence on the clock
is visible in the embedding. -/

/-- One `budgetStatus` entry. -/
structure BudgetEntry where
  category : String
  limit : ℚ
  spent : ℚ
  percentage : ℚ
  rawPercentage : ℚ
  isOver : Bool
deriving DecidableEq, Repr

/-- Current-month expense-only spending per category. -/
def currentMonthSpending (txs : List Transaction) (currentMonthKey : String) :
    List (String × ℚ) :=
  (txs.filter fun t =>
      !(decide (t.type = "income")) && jsStartsWith t.date currentMonthKey).foldl
    (fun acc t => bump t.category t.amountAUD acc) []

/-- The entry built for one `(category, limit)` pair of the budgets map:
`spent = currentMonthSpending[cat] || 0`, `rawPercentage = spent/limit*100`,
`percentage = Math.min(rawPercentage, 100)`, `isOver = spent > limit`. -/
def mkBudgetEntry (txs : List Transaction) (currentMonthKey : String)
    (p : String × ℚ) : BudgetEntry :=
  let spent := lookupQ (currentMonthSpending txs currentMonthKey) p.1
  let rawPercentage := spent / p.2 * 100
  { category := p.1, limit := p.2, spent := spent,
    percentage := min rawPercentage 100, rawPercentage := rawPercentage,
    isOver := decide (p.2 < spent) }

/-- `budgetStatus`: keep budgets with limit > 0, build the entries, sort
descending by the capped `percentage` only (`b.percentage - a.percentage`). -/
def budgetStatus (txs : List Transaction) (budgets : List (String × ℚ))
    (currentMonthKey : String) : List BudgetEntry :=
  sortS (fun a b => decide (b.percentage ≤ a.percentage))
    ((budgets.filter fun p => decide (0 < p.2)).map (mkBudgetEntry txs currentMonthKey))

/-! ## Analytics modal (`AnalyticsModal.tsx`) -/

/-- A `{name, value}` chart datum. -/
structure NV where
  name : String
  value : ℚ
deriving DecidableEq, Repr

/-- Month filter (lines 56-60): `'all'` is modelled by `none`. -/
def filteredTransactions (txs : List Transaction) (selectedMonth : Option String) :
    List Transaction :=
  match selectedMonth with
  | none => txs
  | some m => txs.filter fun t => jsStartsWith t.date m

/-- `categoryData` (lines 63-74): expense-only grouping by raw category label,
sorted by descending value. -/
def categoryData (txs : List Transaction) (selectedMonth : Option String) : List NV :=
  let grouped := ((filteredTransactions txs selectedMonth).filter fun t =>
      !(decide (t.type = "income"))).foldl
    (fun acc t => bump t.category t.amountAUD acc) []
  sortS (fun a b => decide (b.value ≤ a.value)) (grouped.map fun p => ⟨p.1, p.2⟩)

/-- `chartData` of `App.tsx` (lines 215-223): same grouping, insertion order. -/
def chartData (txs : List Transaction) : List NV :=
  ((expenseTransactions txs).foldl (fun acc t => bump t.category t.amountAUD acc) []).map
    fun p => ⟨p.1, p.2⟩

/-! ## ItemizedDrillDown (`AnalyticsModal.tsx` lines 79-120) -/

/-- The literal label of the Unclassified / manual-entry bucket. -/
def unclassifiedName : String := "未分類/手動輸入"

/-- `itemsSum` accumulated over a transaction's items. -/
def itemsSumOf (l : List ReceiptItem) : ℚ := l.foldl (fun s it => s + it.price) 0

/-- One iteration of the `relevantTransactions.forEach` loop over the state
`(itemMap, manualEntryTotal)`. -/
def itemStep (st : List (String × ℚ) × ℚ) (t : Transaction) : List (String × ℚ) × ℚ :=
  match t.items with
  | some l =>
    if l = [] then (st.1, st.2 + t.amountAUD)
    else
      let itemMap := l.foldl (fun mm it => bump (jsTrim it.name) it.price mm) st.1
      if t.amountAUD > itemsSumOf l + 1/10 then (itemMap, st.2 + (t.amountAUD - itemsSumOf l))
      else (itemMap, st.2)
  | none => (st.1, st.2 + t.amountAUD)

/-- `filteredTransactions.filter(t => t.category === detailCategory)`. -/
def relevantTransactions (txs : List Transaction) (selectedMonth : Option String)
    (detailCategory : String) : List Transaction :=
  (filteredTransactions txs selectedMonth).filter fun t => decide (t.category = detailCategory)

/-- The final `manualEntryTotal` of the loop. -/
def manualTotalOf (rel : List Transaction) : ℚ := (rel.foldl itemStep ([], 0)).2

/-- The final `itemMap` of the loop. -/
def itemMapOf (rel : List Transaction) : List (String × ℚ) := (rel.foldl itemStep ([], 0)).1

/-- The tail of `itemizedData` on the already-filtered list: item buckets,
the Unclassified bucket when `manualEntryTotal > 0.01`, sorted by descending
value. -/
def itemizedCore (rel : List Transaction) : List NV :=
  sortS (fun a b => decide (b.value ≤ a.value))
    (if manualTotalOf rel > 1/100 then
      ((itemMapOf rel).map fun p => NV.mk p.1 p.2) ++ [⟨unclassifiedName, manualTotalOf rel⟩]
    else (itemMapOf rel).map fun p => NV.mk p.1 p.2)

/-- `itemizedData` (lines 79-120). -/
def itemizedData (txs : List Transaction) (selectedMonth : Option String)
    (detailCategory : String) : List NV :=
  itemizedCore (relevantTransactions txs selectedMonth detailCategory)

/-! ## PriceWatchAnalyzer (`PriceWatchModal.tsx` lines 26-71) -/

/-- A `{price, store, date}` record. -/
structure PriceRec where
  price : ℚ
  store : String
  date : String
deriving DecidableEq, Repr

/-- `statsMap.get(name).prices.push(record)` with creation on first sight. -/
def pushRec (k : String) (r : PriceRec) :
    List (String × List PriceRec) → List (String × List PriceRec)
  | [] => [(k, [r])]
  | (k', rs) :: m => if k' = k then (k', rs ++ [r]) :: m else (k', rs) :: pushRec k r m

/-- The record built from a transaction and one of its items:
`{price: item.price, store: t.note || 'Unknown', date: t.date}`. -/
def recordOf (t : Transaction) (it : ReceiptItem) : PriceRec :=
  ⟨it.price, strOr t.note "Unknown", t.date⟩

/-- The populated `statsMap` (lines 27-44); a transaction with `items` either
absent or empty contributes nothing. -/
def statsMapOf (txs : List Transaction) : List (String × List PriceRec) :=
  txs.foldl
    (fun m t =>
      match t.items with
      | some l => l.foldl (fun mm it => pushRec (jsTrim it.name) (recordOf t it) mm) m
      | none => m)
    []

/-- An `ItemStat` row. -/
structure ItemStat where
  name : String
  minPrice : ℚ
  maxPrice : ℚ
  avgPrice : ℚ
  bestStore : String
  lastPrice : ℚ
  history : List PriceRec
deriving DecidableEq, Repr

/-- Lines 47-68 for one (nonempty) price list.  `Date.getTime` ordering on
the fixed-width ISO dates the app stores coincides with lexicographic string
order, which is how the date-descending sort is modelled. -/
def mkItemStat (name : String) : List PriceRec → Option ItemStat
  | [] => none
  | r :: rest =>
    let sortedPrices := sortS (fun a b => strLe b.date a.date) (r :: rest)
    let minPrice := (rest.map PriceRec.price).foldl min r.price
    let maxPrice := (rest.map PriceRec.price).foldl max r.price
    let avgPrice := ((r :: rest).map PriceRec.price).sum / ((r :: rest).length : ℚ)
    let bestStore :=
      match (r :: rest).find? (fun p => decide (p.price = minPrice)) with
      | some b => strOr b.store "Unknown"
      | none => "Unknown"
    let lastPrice := (sortedPrices.headD r).price
    some ⟨name, minPrice, maxPrice, avgPrice, bestStore, lastPrice, sortedPrices⟩

/-- `itemStats` (lines 26-71): one row per name with a nonempty record list,
sorted by descending history length. -/
def itemStats (txs : List Transaction) : List ItemStat :=
  sortS (fun a b => decide (b.history.length ≤ a.history.length))
    ((statsMapOf txs).filterMap fun p => mkItemStat p.1 p.2)

/-! ## The Analytics monthly-trend grouping (`AnalyticsModal.tsx` lines 26-53)

Unlike every other month grouping, `monthlyData` runs the date through
`new Date(t.date)` and reads back `getFullYear()` / `getMonth()`, which are
**local-time** accessors: a fixed-width `YYYY-MM-DD` string parses as UTC
midnight, so in an environment whose UTC offset is negative the local date is
the previous calendar day.  The ambient offset (minutes east of UTC,
`-1440 < tz < 1440`) is made an explicit parameter `tz`; the parse of a
well-formed fixed-width date is modelled by reading its digit fields. -/

/-- The digit character of `n` (defined for `n < 10`). -/
def digitChar (n : ℕ) : Char :=
  if n = 1 then '1' else if n = 2 then '2' else if n = 3 then '3'
  else if n = 4 then '4' else if n = 5 then '5' else if n = 6 then '6'
  else if n = 7 then '7' else if n = 8 then '8' else if n = 9 then '9' else '0'

/-- The numeric value of a digit character. -/
def charVal (c : Char) : ℕ :=
  if c = '1' then 1 else if c = '2' then 2 else if c = '3' then 3
  else if c = '4' then 4 else if c = '5' then 5 else if c = '6' then 6
  else if c = '7' then 7 else if c = '8' then 8 else if c = '9' then 9 else 0

/-- Decimal value of a digit list. -/
def digitsVal (l : List Char) : ℕ := l.foldl (fun a c => a * 10 + charVal c) 0

/-- `String(n).padStart(2, '0')` for `n ≤ 99`. -/
def pad2l (n : ℕ) : List Char := [digitChar (n / 10 % 10), digitChar (n % 10)]

/-- The four digits of a year `≤ 9999`. -/
def pad4l (y : ℕ) : List Char :=
  [digitChar (y / 1000 % 10), digitChar (y / 100 % 10), digitChar (y / 10 % 10),
   digitChar (y % 10)]

/-- The fixed-width `YYYY-MM-DD` date string (the producers' invariant). -/
def mkDateStr (y m d : ℕ) : String := ⟨pad4l y ++ '-' :: (pad2l m ++ '-' :: pad2l d)⟩

/-- Decimal digits of `n` (`String(n)` for a non-negative integer): no
leading zeros.  The first argument is fuel, always sufficient at `n + 1`. -/
def natDigitsAux : ℕ → ℕ → List Char
  | 0, _ => []
  | fuel + 1, n =>
    if n < 10 then [digitChar n] else natDigitsAux fuel (n / 10) ++ [digitChar (n % 10)]

/-- `String(n)` as JS renders it in a template literal: unpadded decimal. -/
def natDigits (n : ℕ) : List Char := natDigitsAux (n + 1) n

/-- The `` `${date.getFullYear()}-${String(...).padStart(2, '0')}` `` key
string built at line 31: the year is rendered **unpadded**, only the month is
padded. -/
def monthKeyStr (y m : ℕ) : String := ⟨natDigits y ++ '-' :: pad2l m⟩

/-- Local calendar (year, month) of UTC midnight of (y, m, d) at offset `tz`
minutes east of UTC (|tz| < one day): a negative offset steps back one day. -/
def jsLocalYM (y m d : ℕ) (tz : ℤ) : ℕ × ℕ :=
  if 0 ≤ tz then (y, m)
  else if 1 < d then (y, m)
  else if 1 < m then (y, m - 1)
  else (y - 1, 12)

/-- The month key `monthlyData` groups a (well-formed fixed-width) date
under: parse the digit fields, take the local year/month at offset `tz`. -/
def jsMonthKeyOfDate (date : String) (tz : ℤ) : String :=
  let y := digitsVal (date.data.take 4)
  let m := digitsVal ((date.data.drop 5).take 2)
  let d := digitsVal ((date.data.drop 8).take 2)
  let p := jsLocalYM y m d tz
  monthKeyStr p.1 p.2

/-- `{ name, Income, Expense, Net }` accumulator of `monthlyData`. -/
structure TrendAgg where
  income : ℚ
  expense : ℚ
deriving DecidableEq, Repr

/-- The loop body of `monthlyData` (lines 29-44). -/
def upsertTrend (k : String) (t : Transaction) :
    List (String × TrendAgg) → List (String × TrendAgg)
  | [] =>
    [(k, if t.type = "income" then ⟨t.amountAUD, 0⟩ else ⟨0, t.amountAUD⟩)]
  | (k', a) :: m =>
    if k' = k then
      (k', if t.type = "income" then { a with income := a.income + t.amountAUD }
           else { a with expense := a.expense + t.amountAUD }) :: m
    else (k', a) :: upsertTrend k t m

/-- A `monthlyData` row (`Net` is maintained as income - expense; the final
`shortName` month-number field of the source is display-only and omitted). -/
structure TrendRow where
  name : String
  income : ℚ
  expense : ℚ
  net : ℚ
deriving DecidableEq, Repr

/-- `monthlyData` (lines 26-53): group under the parsed local month key,
sort ascending by key (`a.name.localeCompare(b.name)`). -/
def monthlyData (txs : List Transaction) (tz : ℤ) : List TrendRow :=
  (sortS (fun a b => strLe a.1 b.1)
      (txs.foldl (fun m t => upsertTrend (jsMonthKeyOfDate t.date tz) t m) [])).map
    fun p => ⟨p.1, p.2.income, p.2.expense, p.2.income - p.2.expense⟩

/-! ## Supporting lemmas for the claims -/

theorem foldl_add_map (f : α → ℚ) (l : List α) (a : ℚ) :
    l.foldl (fun s t => s + f t) a = a + (l.map f).sum := by
  induction l generalizing a with
  | nil => simp
  | cons x l ih => simp [ih]; ring

/-- Income contribution of one transaction. -/
def incomeOf (t : Transaction) : ℚ := if t.type = "income" then t.amountAUD else 0

/-- Expense contribution of one transaction. -/
def expenseOf (t : Transaction) : ℚ := if t.type = "income" then 0 else t.amountAUD

/-- Total income stored in a month map. -/
def mapIncome (m : List (String × MonthAgg)) : ℚ := (m.map fun p => p.2.income).sum

/-- Total expense stored in a month map. -/
def mapExpense (m : List (String × MonthAgg)) : ℚ := (m.map fun p => p.2.expense).sum

theorem mapIncome_upsertMonth (k : String) (t : Transaction)
    (m : List (String × MonthAgg)) :
    mapIncome (upsertMonth k t m) = mapIncome m + incomeOf t := by
  induction m with
  | nil =>
    by_cases h : t.type = "income" <;>
      simp [upsertMonth, addToAgg, mapIncome, incomeOf, h]
  | cons p m ih =>
    obtain ⟨k₀, a⟩ := p
    by_cases h0 : k₀ = k
    · subst h0
      by_cases h : t.type = "income" <;>
        simp [upsertMonth, addToAgg, mapIncome, incomeOf, h] <;> ring
    · simp only [upsertMonth, h0, if_false, mapIncome, List.map_cons, List.sum_cons]
      simp only [mapIncome] at ih
      rw [ih]; ring

theorem mapExpense_upsertMonth (k : String) (t : Transaction)
    (m : List (String × MonthAgg)) :
    mapExpense (upsertMonth k t m) = mapExpense m + expenseOf t := by
  induction m with
  | nil =>
    by_cases h : t.type = "income" <;>
      simp [upsertMonth, addToAgg, mapExpense, expenseOf, h]
  | cons p m ih =>
    obtain ⟨k₀, a⟩ := p
    by_cases h0 : k₀ = k
    · subst h0
      by_cases h : t.type = "income" <;>
        simp [upsertMonth, addToAgg, mapExpense, expenseOf, h] <;> ring
    · simp only [upsertMonth, h0, if_false, mapExpense, List.map_cons, List.sum_cons]
      simp only [mapExpense] at ih
      rw [ih]; ring

theorem monthlyHistoryMap_fold_income (txs : List Transaction)
    (m : List (String × MonthAgg)) :
    mapIncome (txs.foldl (fun m t => upsertMonth (substrTo 7 t.date) t m) m) =
      mapIncome m + (txs.map incomeOf).sum := by
  induction txs generalizing m with
  | nil => simp
  | cons t txs ih =>
    simp only [List.foldl_cons, List.map_cons, List.sum_cons]
    rw [ih, mapIncome_upsertMonth]; ring

theorem monthlyHistoryMap_fold_expense (txs : List Transaction)
    (m : List (String × MonthAgg)) :
    mapExpense (txs.foldl (fun m t => upsertMonth (substrTo 7 t.date) t m) m) =
      mapExpense m + (txs.map expenseOf).sum := by
  induction txs generalizing m with
  | nil => simp
  | cons t txs ih =>
    simp only [List.foldl_cons, List.map_cons, List.sum_cons]
    rw [ih, mapExpense_upsertMonth]; ring

theorem totalIncomeAUD_eq_sum (txs : List Transaction) :
    totalIncomeAUD txs = (txs.map incomeOf).sum := by
  rw [totalIncomeAUD, foldl_add_map, zero_add]
  induction txs with
  | nil => simp [incomeTransactions]
  | cons t txs ih =>
    by_cases h : t.type = "income" <;>
      simp [incomeTransactions, List.filter_cons, h, incomeOf, ih] <;>
      simpa [incomeTransactions] using ih

theorem totalExpenseAUD_eq_sum (txs : List Transaction) :
    totalExpenseAUD txs = (txs.map expenseOf).sum := by
  rw [totalExpenseAUD, foldl_add_map, zero_add]
  induction txs with
  | nil => simp [expenseTransactions]
  | cons t txs ih =>
    by_cases h : t.type = "income" <;>
      simp [expenseTransactions, List.filter_cons, h, expenseOf, ih] <;>
      simpa [expenseTransactions] using ih

/-- C7: the `monthlyHistory` rows partition the transactions by month, so
their per-month incomes (resp. expenses) add up to the global totals. -/
theorem monthlyHistory_income_sum (txs : List Transaction) :
    ((monthlyHistory txs).map MonthRow.income).sum = totalIncomeAUD txs := by
  have h1 : ((monthlyHistory txs).map MonthRow.income).sum =
      ((sortS (fun a b => strLe b.1 a.1) (monthlyHistoryMap txs)).map
        fun p => p.2.income).sum := by
    rw [monthlyHistory, List.map_map]; rfl
  have h2 : mapIncome (monthlyHistoryMap txs) = (txs.map incomeOf).sum := by
    have := monthlyHistoryMap_fold_income txs []
    simpa [mapIncome, monthlyHistoryMap] using this
  rw [h1, sortS_map_sum]
  rw [show ((monthlyHistoryMap txs).map fun p => p.2.income).sum =
      mapIncome (monthlyHistoryMap txs) from rfl]
  rw [h2, totalIncomeAUD_eq_sum]

theorem monthlyHistory_expense_sum (txs : List Transaction) :
    ((monthlyHistory txs).map MonthRow.expense).sum = totalExpenseAUD txs := by
  have h1 : ((monthlyHistory txs).map MonthRow.expense).sum =
      ((sortS (fun a b => strLe b.1 a.1) (monthlyHistoryMap txs)).map
        fun p => p.2.expense).sum := by
    rw [monthlyHistory, List.map_map]; rfl
  have h2 : mapExpense (monthlyHistoryMap txs) = (txs.map expenseOf).sum := by
    have := monthlyHistoryMap_fold_expense txs []
    simpa [mapExpense, monthlyHistoryMap] using this
  rw [h1, sortS_map_sum]
  rw [show ((monthlyHistoryMap txs).map fun p => p.2.expense).sum =
      mapExpense (monthlyHistoryMap txs) from rfl]
  rw [h2, totalExpenseAUD_eq_sum]

/-! ### ItemizedDrillDown: closed forms of the reconciliation loop -/

/-- What one transaction contributes to `manualEntryTotal`. -/
def manualContrib (t : Transaction) : ℚ :=
  match t.items with
  | some l =>
    if l = [] then t.amountAUD
    else if t.amountAUD > itemsSumOf l + 1/10 then t.amountAUD - itemsSumOf l else 0
  | none => t.amountAUD

/-- What one transaction contributes to the named item buckets in total. -/
def itemsContrib (t : Transaction) : ℚ :=
  match t.items with
  | some l => itemsSumOf l
  | none => 0

/-- What one transaction contributes to the bucket named `n`. -/
def itemNameContrib (n : String) (t : Transaction) : ℚ :=
  match t.items with
  | some l => ((l.filter fun it => decide (jsTrim it.name = n)).map ReceiptItem.price).sum
  | none => 0

theorem itemsSumOf_eq_sum (l : List ReceiptItem) :
    itemsSumOf l = (l.map ReceiptItem.price).sum := by
  rw [itemsSumOf, foldl_add_map, zero_add]

theorem itemStep_fst (st : List (String × ℚ) × ℚ) (t : Transaction) :
    (itemStep st t).1 =
      (t.items.getD []).foldl (fun mm it => bump (jsTrim it.name) it.price mm) st.1 := by
  rcases t with ⟨id, ty, amt, amtT, cat, date, note, items, tax, sup⟩
  cases items with
  | none => simp [itemStep]
  | some l =>
    by_cases h : l = []
    · subst h; simp [itemStep]
    · simp only [itemStep, h, if_false, Option.getD_some]
      split <;> rfl

theorem itemStep_snd (st : List (String × ℚ) × ℚ) (t : Transaction) :
    (itemStep st t).2 = st.2 + manualContrib t := by
  rcases t with ⟨id, ty, amt, amtT, cat, date, note, items, tax, sup⟩
  cases items with
  | none => simp [itemStep, manualContrib]
  | some l =>
    by_cases h : l = []
    · subst h; simp [itemStep, manualContrib]
    · simp only [itemStep, manualContrib, h, if_false]
      split <;> rename_i hc <;> simp [hc]

theorem foldl_itemStep_snd (rel : List Transaction) (st : List (String × ℚ) × ℚ) :
    (rel.foldl itemStep st).2 = st.2 + (rel.map manualContrib).sum := by
  induction rel generalizing st with
  | nil => simp
  | cons t rel ih =>
    simp only [List.foldl_cons, List.map_cons, List.sum_cons]
    rw [ih, itemStep_snd]
    ring

theorem manualTotalOf_eq_sum (rel : List Transaction) :
    manualTotalOf rel = (rel.map manualContrib).sum := by
  have := foldl_itemStep_snd rel ([], 0)
  simpa [manualTotalOf] using this

theorem sumValues_items_fold (l : List ReceiptItem) (mp : List (String × ℚ)) :
    sumValues (l.foldl (fun mm it => bump (jsTrim it.name) it.price mm) mp) =
      sumValues mp + itemsSumOf l := by
  induction l generalizing mp with
  | nil => simp [itemsSumOf]
  | cons it l ih =>
    simp only [List.foldl_cons]
    rw [ih, sumValues_bump, itemsSumOf_eq_sum]
    simp [itemsSumOf_eq_sum]
    ring

theorem foldl_itemStep_fst_sum (rel : List Transaction) (st : List (String × ℚ) × ℚ) :
    sumValues (rel.foldl itemStep st).1 = sumValues st.1 + (rel.map itemsContrib).sum := by
  induction rel generalizing st with
  | nil => simp
  | cons t rel ih =>
    simp only [List.foldl_cons, List.map_cons, List.sum_cons]
    rw [ih, itemStep_fst]
    rcases t with ⟨id, ty, amt, amtT, cat, date, note, items, tax, sup⟩
    cases items with
    | none => simp [itemsContrib]
    | some l =>
      simp only [Option.getD_some, itemsContrib]
      rw [sumValues_items_fold]
      ring

theorem sumValues_itemMapOf (rel : List Transaction) :
    sumValues (itemMapOf rel) = (rel.map itemsContrib).sum := by
  have := foldl_itemStep_fst_sum rel ([], 0)
  simpa [itemMapOf, sumValues] using this

theorem lookupQ_items_fold (n : String) (l : List ReceiptItem) (mp : List (String × ℚ)) :
    lookupQ (l.foldl (fun mm it => bump (jsTrim it.name) it.price mm) mp) n =
      lookupQ mp n +
        ((l.filter fun it => decide (jsTrim it.name = n)).map ReceiptItem.price).sum := by
  induction l generalizing mp with
  | nil => simp
  | cons it l ih =>
    simp only [List.foldl_cons]
    rw [ih, lookupQ_bump]
    by_cases h : jsTrim it.name = n
    · have hb : (decide (jsTrim it.name = n)) = true := by simp [h]
      simp only [List.filter_cons, hb, if_true, List.map_cons, List.sum_cons]
      rw [if_pos h.symm]
      ring
    · have hb : (decide (jsTrim it.name = n)) = false := by simp [h]
      simp only [List.filter_cons, hb, Bool.false_eq_true, if_false]
      rw [if_neg fun hh => h hh.symm]
      ring

theorem foldl_itemStep_fst_lookup (n : String) (rel : List Transaction)
    (st : List (String × ℚ) × ℚ) :
    lookupQ (rel.foldl itemStep st).1 n =
      lookupQ st.1 n + (rel.map (itemNameContrib n)).sum := by
  induction rel generalizing st with
  | nil => simp
  | cons t rel ih =>
    simp only [List.foldl_cons, List.map_cons, List.sum_cons]
    rw [ih, itemStep_fst]
    rcases t with ⟨id, ty, amt, amtT, cat, date, note, items, tax, sup⟩
    cases items with
    | none => simp [itemNameContrib]
    | some l =>
      simp only [Option.getD_some, itemNameContrib]
      rw [lookupQ_items_fold]
      ring

theorem lookupQ_itemMapOf (n : String) (rel : List Transaction) :
    lookupQ (itemMapOf rel) n = (rel.map (itemNameContrib n)).sum := by
  have := foldl_itemStep_fst_lookup n rel ([], 0)
  simpa [itemMapOf, lookupQ, lookupA] using this

theorem keys_items_fold (n : String) (l : List ReceiptItem) (mp : List (String × ℚ))
    (h : n ∈ (l.foldl (fun mm it => bump (jsTrim it.name) it.price mm) mp).map Prod.fst) :
    n ∈ mp.map Prod.fst ∨ ∃ it ∈ l, jsTrim it.name = n := by
  induction l generalizing mp with
  | nil => exact Or.inl h
  | cons it l ih =>
    simp only [List.foldl_cons] at h
    rcases ih _ h with h' | h'
    · rcases (keys_bump _ _ _ _).mp h' with h'' | h''
      · exact Or.inr ⟨it, List.mem_cons_self _ _, h''.symm⟩
      · exact Or.inl h''
    · rcases h' with ⟨it', hit', hn⟩
      exact Or.inr ⟨it', List.mem_cons_of_mem _ hit', hn⟩

theorem keys_itemStep_fold (n : String) (rel : List Transaction)
    (st : List (String × ℚ) × ℚ)
    (h : n ∈ (rel.foldl itemStep st).1.map Prod.fst) :
    n ∈ st.1.map Prod.fst ∨
      ∃ t ∈ rel, ∃ l, t.items = some l ∧ ∃ it ∈ l, jsTrim it.name = n := by
  induction rel generalizing st with
  | nil => exact Or.inl h
  | cons t rel ih =>
    simp only [List.foldl_cons] at h
    rcases ih _ h with h' | h'
    · rw [itemStep_fst] at h'
      rcases t with ⟨id, ty, amt, amtT, cat, date, note, items, tax, sup⟩
      cases items with
      | none => exact Or.inl h'
      | some l =>
        rcases keys_items_fold n l st.1 h' with h'' | ⟨it, hit, hn⟩
        · exact Or.inl h''
        · exact Or.inr ⟨_, List.mem_cons_self _ _, l, rfl, it, hit, hn⟩
    · rcases h' with ⟨t', ht', rest⟩
      exact Or.inr ⟨t', List.mem_cons_of_mem _ ht', rest⟩

theorem keys_itemMapOf (n : String) (rel : List Transaction)
    (h : n ∈ (itemMapOf rel).map Prod.fst) :
    ∃ t ∈ rel, ∃ l, t.items = some l ∧ ∃ it ∈ l, jsTrim it.name = n := by
  rcases keys_itemStep_fold n rel ([], 0) h with h' | h'
  · simp at h'
  · exact h'

theorem itemizedCore_value_sum (rel : List Transaction) :
    ((itemizedCore rel).map NV.value).sum =
      sumValues (itemMapOf rel) +
        (if manualTotalOf rel > 1/100 then manualTotalOf rel else 0) := by
  rw [itemizedCore, sortS_map_sum]
  by_cases h : manualTotalOf rel > 1/100
  · simp only [h, if_true]
    rw [List.map_append, List.sum_append, List.map_map]
    simp only [sumValues, List.map_cons, List.map_nil, List.sum_cons, List.sum_nil, add_zero]
    rfl
  · simp only [h, if_false, List.map_map, sumValues, add_zero]
    rfl

theorem itemizedCore_names (rel : List Transaction) (n : String) :
    n ∈ (itemizedCore rel).map NV.name ↔
      n ∈ (itemMapOf rel).map Prod.fst ∨
        (manualTotalOf rel > 1/100 ∧ n = unclassifiedName) := by
  rw [itemizedCore]
  constructor
  · intro h
    rcases List.mem_map.mp h with ⟨e, he, hn⟩
    rw [mem_sortS] at he
    by_cases hm : manualTotalOf rel > 1/100
    · simp only [hm, if_true] at he
      rcases List.mem_append.mp he with he' | he'
      · rcases List.mem_map.mp he' with ⟨p, hp, hpe⟩
        exact Or.inl (List.mem_map.mpr ⟨p, hp, by rw [← hn, ← hpe]⟩)
      · simp at he'
        exact Or.inr ⟨hm, by rw [← hn, he']⟩
    · simp only [hm, if_false] at he
      rcases List.mem_map.mp he with ⟨p, hp, hpe⟩
      exact Or.inl (List.mem_map.mpr ⟨p, hp, by rw [← hn, ← hpe]⟩)
  · intro h
    rcases h with h | ⟨hm, rfl⟩
    · rcases List.mem_map.mp h with ⟨p, hp, hpn⟩
      refine List.mem_map.mpr ⟨⟨p.1, p.2⟩, ?_, hpn⟩
      rw [mem_sortS]
      by_cases hm : manualTotalOf rel > 1/100
      · simp only [hm, if_true]
        exact List.mem_append.mpr (Or.inl (List.mem_map.mpr ⟨p, hp, rfl⟩))
      · simp only [hm, if_false]
        exact List.mem_map.mpr ⟨p, hp, rfl⟩
    · refine List.mem_map.mpr ⟨⟨unclassifiedName, manualTotalOf rel⟩, ?_, rfl⟩
      rw [mem_sortS]
      simp only [hm, if_true]
      exact List.mem_append.mpr (Or.inr (List.mem_singleton.mpr rfl))

theorem sum_map_add_of (l : List α) (f g h : α → ℚ)
    (hfg : ∀ x ∈ l, f x + g x = h x) :
    (l.map f).sum + (l.map g).sum = (l.map h).sum := by
  induction l with
  | nil => simp
  | cons x l ih =>
    simp only [List.map_cons, List.sum_cons]
    rw [← hfg x (List.mem_cons_self _ _),
      ← ih fun y hy => hfg y (List.mem_cons_of_mem _ hy)]
    ring

/-! ## Concrete inputs used by counterexamples and witnesses -/

/-- An expense of 10.05 with a single itemised line of 10: its remainder 0.05
lies strictly between 0 and the tolerance. -/
def txSlack : Transaction :=
  { id := "t1", type := "expense", amountAUD := 201/20, amountTWD := 0,
    category := "超市雜貨", date := "2024-01-05", note := "", items := some [⟨"Milk", 10, none⟩] }

/-- Scenario A of the spec: expense 50 with items Milk 4 and Bread 3. -/
def txScenA : Transaction :=
  { id := "t2", type := "expense", amountAUD := 50, amountTWD := 0,
    category := "超市雜貨", date := "2024-01-05", note := "",
    items := some [⟨"Milk", 4, none⟩, ⟨"Bread", 3, none⟩] }

/-- An itemless expense of 0.05: above the 0.01 emission threshold but not
above the ε = 0.1 tolerance. -/
def txTiny : Transaction :=
  { id := "t3", type := "expense", amountAUD := 1/20, amountTWD := 0,
    category := "超市雜貨", date := "2024-01-05", note := "" }

/-! ## Claims C1, C2, C7 -/

/-- C1 (amended): the ItemizedDrillDown conservation law holds provided every
in-scope transaction carrying a nonempty item list has remainder
`amountPrimary - itemsSum` either exactly 0 or above the tolerance ε = 0.1,
and the accumulated Unclassified total is either 0 or above the 0.01 emission
threshold; then the bucket totals sum to the `amountAUD` total of the
in-scope transactions. -/
theorem itemized_conservation (txs : List Transaction) (m : Option String) (c : String)
    (h1 : ∀ t ∈ relevantTransactions txs m c, ∀ l, t.items = some l → l ≠ [] →
      t.amountAUD - itemsSumOf l = 0 ∨ t.amountAUD - itemsSumOf l > 1/10)
    (h2 : manualTotalOf (relevantTransactions txs m c) = 0 ∨
      manualTotalOf (relevantTransactions txs m c) > 1/100) :
    ((itemizedData txs m c).map NV.value).sum =
      ((relevantTransactions txs m c).map Transaction.amountAUD).sum := by
  have key : ∀ t ∈ relevantTransactions txs m c,
      itemsContrib t + manualContrib t = t.amountAUD := by
    intro t ht
    rcases htt : t.items with _ | l
    · simp [itemsContrib, manualContrib, htt]
    · by_cases hl : l = []
      · subst hl
        simp [itemsContrib, manualContrib, htt, itemsSumOf]
      · rcases h1 t ht l htt hl with hrem | hrem
        · have hc : ¬(t.amountAUD > itemsSumOf l + 1/10) := not_lt.mpr (by linarith)
          simp only [itemsContrib, manualContrib, htt]
          rw [if_neg hl, if_neg hc]
          linarith
        · have hc : t.amountAUD > itemsSumOf l + 1/10 := by linarith
          simp only [itemsContrib, manualContrib, htt]
          rw [if_neg hl, if_pos hc]
          ring
  have hsum := sum_map_add_of (relevantTransactions txs m c)
    itemsContrib manualContrib Transaction.amountAUD key
  rw [itemizedData, itemizedCore_value_sum, sumValues_itemMapOf]
  rcases h2 with h2 | h2
  · rw [h2]
    simp only [manualTotalOf_eq_sum] at h2
    rw [← hsum, h2]
    norm_num
  · rw [if_pos h2, manualTotalOf_eq_sum, hsum]

/-- C1 (counterexample): a single in-scope transaction of 10.05 with one item
priced 10 — the remainder 0.05 is silently dropped, so the bucket totals sum
to 10, not 10.05. -/
theorem itemized_conservation_fails :
    ((itemizedData [txSlack] none "超市雜貨").map NV.value).sum ≠
      ((relevantTransactions [txSlack] none "超市雜貨").map Transaction.amountAUD).sum := by
  have hrel : relevantTransactions [txSlack] none "超市雜貨" = [txSlack] := by
    simp [relevantTransactions, filteredTransactions, txSlack]
  have hval : ((itemizedData [txSlack] none "超市雜貨").map NV.value).sum = 10 := by
    rw [itemizedData, itemizedCore_value_sum, sumValues_itemMapOf, manualTotalOf_eq_sum, hrel]
    norm_num [itemsContrib, manualContrib, txSlack, itemsSumOf]
  rw [hval, hrel]
  norm_num [txSlack]

/-- C1 (witness for the amended theorem): Scenario A — a 50-dollar expense
with items 4 and 3 satisfies both provisos and the bucket totals sum to 50. -/
theorem itemized_conservation_witness :
    ((itemizedData [txScenA] none "超市雜貨").map NV.value).sum =
      ((relevantTransactions [txScenA] none "超市雜貨").map Transaction.amountAUD).sum := by
  have hrel : relevantTransactions [txScenA] none "超市雜貨" = [txScenA] := by
    simp [relevantTransactions, filteredTransactions, txScenA]
  refine itemized_conservation [txScenA] none "超市雜貨" ?_ ?_
  · rw [hrel]
    intro t ht l hl hne
    simp only [List.mem_singleton] at ht
    subst ht
    simp only [txScenA] at hl
    cases hl
    right
    norm_num [itemsSumOf, txScenA]
  · rw [hrel]
    right
    have h43 : manualTotalOf [txScenA] = 43 := by
      rw [manualTotalOf_eq_sum]
      norm_num [manualContrib, txScenA, itemsSumOf]
      simp
    rw [h43]
    norm_num

/-- C2 (amended): the per-transaction accumulation rule of ItemizedDrillDown
— each item's price lands in its (trimmed) name's bucket; a transaction with
a nonempty item list feeds the Unclassified bucket with the remainder exactly
when it exceeds ε = 0.1 and never with a negative amount; an itemless (or
empty-item-list) transaction feeds its whole `amountAUD` into the
Unclassified bucket; but the Unclassified bucket is emitted exactly when its
total exceeds 0.01 (not ε = 0.1 as claimed). -/
theorem itemized_accumulation (txs : List Transaction) (m : Option String) (c : String)
    (hname : ∀ t ∈ relevantTransactions txs m c, ∀ l, t.items = some l →
      ∀ it ∈ l, jsTrim it.name ≠ unclassifiedName) :
    (∀ n, lookupQ (itemMapOf (relevantTransactions txs m c)) n =
        ((relevantTransactions txs m c).map (itemNameContrib n)).sum) ∧
    manualTotalOf (relevantTransactions txs m c) =
      ((relevantTransactions txs m c).map manualContrib).sum ∧
    (∀ t ∈ relevantTransactions txs m c, ∀ l, t.items = some l → l ≠ [] →
      manualContrib t =
        (if t.amountAUD - itemsSumOf l > 1/10 then t.amountAUD - itemsSumOf l else 0) ∧
      0 ≤ manualContrib t) ∧
    (∀ t ∈ relevantTransactions txs m c, (t.items = none ∨ t.items = some []) →
      manualContrib t = t.amountAUD) ∧
    (unclassifiedName ∈ (itemizedData txs m c).map NV.name ↔
      manualTotalOf (relevantTransactions txs m c) > 1/100) := by
  refine ⟨fun n => lookupQ_itemMapOf n _, manualTotalOf_eq_sum _, ?_, ?_, ?_⟩
  · intro t ht l hl hne
    constructor
    · simp only [manualContrib, hl, hne, if_false]
      by_cases hc : t.amountAUD > itemsSumOf l + 1/10
      · rw [if_pos hc, if_pos (by linarith)]
      · rw [if_neg hc, if_neg (by intro h; apply hc; linarith)]
    · simp only [manualContrib, hl, hne, if_false]
      by_cases hc : t.amountAUD > itemsSumOf l + 1/10
      · rw [if_pos hc]; linarith
      · rw [if_neg hc]
  · intro t ht h
    rcases h with h | h <;> simp [manualContrib, h]
  · rw [itemizedData, itemizedCore_names]
    constructor
    · intro h
      rcases h with h | h
      · exfalso
        rcases keys_itemMapOf _ _ h with ⟨t, ht, l, hl, it, hit, hjt⟩
        exact hname t ht l hl it hit hjt
      · exact h.1
    · intro h
      exact Or.inr ⟨h, rfl⟩

/-- C2 (counterexample): a single itemless 0.05 expense — the Unclassified
bucket is emitted (0.05 > 0.01) even though its total does not exceed
ε = 0.1, refuting "appears exactly when its total exceeds ε". -/
theorem itemized_accumulation_threshold_fails :
    unclassifiedName ∈ (itemizedData [txTiny] none "超市雜貨").map NV.name ∧
      ¬(manualTotalOf (relevantTransactions [txTiny] none "超市雜貨") > 1/10) := by
  have hrel : relevantTransactions [txTiny] none "超市雜貨" = [txTiny] := by
    simp [relevantTransactions, filteredTransactions, txTiny]
  have hman : manualTotalOf (relevantTransactions [txTiny] none "超市雜貨") = 1/20 := by
    rw [hrel]
    norm_num [manualTotalOf, itemStep, txTiny]
  constructor
  · rw [itemizedData, itemizedCore_names]
    right
    refine ⟨?_, rfl⟩
    rw [hman]
    norm_num
  · rw [hman]
    norm_num

/-- C2 (witness for the amended theorem): the Unclassified-emission biconditional
evaluated on the 0.05 itemless expense. -/
theorem itemized_accumulation_witness :
    unclassifiedName ∈ (itemizedData [txTiny] none "超市雜貨").map NV.name ↔
      manualTotalOf (relevantTransactions [txTiny] none "超市雜貨") > 1/100 := by
  have h := itemized_accumulation [txTiny] none "超市雜貨" ?_
  · exact h.2.2.2.2
  · intro t ht l hl it hit
    have hrel : relevantTransactions [txTiny] none "超市雜貨" = [txTiny] := by
      simp [relevantTransactions, filteredTransactions, txTiny]
    rw [hrel, List.mem_singleton] at ht
    subst ht
    simp [txTiny] at hl

/-- C7: summing the per-month incomes (resp. expenses) of MonthlyHistory over
all rows recovers the TotalsCalculator income (resp. expense) total, for
every transaction set. -/
theorem cross_lens_totals_agree :
    ∀ txs : List Transaction,
      ((monthlyHistory txs).map MonthRow.income).sum = totalIncomeAUD txs ∧
      ((monthlyHistory txs).map MonthRow.expense).sum = totalExpenseAUD txs :=
  fun txs => ⟨monthlyHistory_income_sum txs, monthlyHistory_expense_sum txs⟩

/-! ## Claims C5, C6, C8: BudgetStatus -/

theorem foldl_bump_nonneg (key : α → String) (f : α → ℚ) :
    ∀ (l : List α) (m : List (String × ℚ)), (∀ p ∈ m, 0 ≤ p.2) →
      (∀ t ∈ l, 0 ≤ f t) →
      ∀ p ∈ l.foldl (fun acc t => bump (key t) (f t) acc) m, 0 ≤ p.2 := by
  intro l
  induction l with
  | nil => intro m hm _; exact hm
  | cons t l ih =>
    intro m hm hf
    simp only [List.foldl_cons]
    have h0 : 0 ≤ f t := hf t (List.mem_cons_self _ _)
    exact ih _
      (bump_forall_values (key t) (f t) m _ hm (fun x hx => by linarith) (by linarith))
      (fun t' ht' => hf t' (List.mem_cons_of_mem _ ht'))

theorem currentMonthSpending_nonneg (txs : List Transaction) (mk : String)
    (h : ∀ t ∈ txs, 0 ≤ t.amountAUD) :
    ∀ p ∈ currentMonthSpending txs mk, 0 ≤ p.2 := by
  refine foldl_bump_nonneg Transaction.category Transaction.amountAUD _ [] (by simp) ?_
  intro t ht
  exact h t (List.mem_filter.mp ht).1

/-- Scenario B's transaction: a current-month Groceries expense of 120. -/
def txGroc : Transaction :=
  { id := "g1", type := "expense", amountAUD := 120, amountTWD := 0,
    category := "Groceries", date := "2024-01-15", note := "" }

theorem spending_groc_jan :
    currentMonthSpending [txGroc] "2024-01" = [("Groceries", 120)] := by decide

theorem spending_groc_feb : currentMonthSpending [txGroc] "2024-02" = [] := by decide

/-- Scenario B evaluated: the January budget status of the 120-spend against
the 100 limit. -/
theorem budgetStatus_groc_jan :
    budgetStatus [txGroc] [("Groceries", 100)] "2024-01" =
      [⟨"Groceries", 100, 120, 100, 120, true⟩] := by
  rw [budgetStatus]
  have h1 : (([("Groceries", (100 : ℚ))].filter fun p => decide (0 < p.2))) =
      [("Groceries", 100)] := by decide
  rw [h1]
  have h2 : mkBudgetEntry [txGroc] "2024-01" ("Groceries", 100) =
      ⟨"Groceries", 100, 120, 100, 120, true⟩ := by
    rw [mkBudgetEntry, spending_groc_jan]
    have hs : lookupQ [("Groceries", (120 : ℚ))] "Groceries" = 120 := by decide
    rw [hs]
    have hraw : (120 : ℚ) / 100 * 100 = 120 := by norm_num
    rw [hraw]
    have hmin : min (120 : ℚ) 100 = 100 := min_eq_right (by norm_num)
    rw [hmin]
    have hover : decide ((100 : ℚ) < 120) = true := by
      rw [decide_eq_true_eq]; norm_num
    rw [hover]
  simp only [List.map_cons, List.map_nil, h2]
  rfl

theorem budgetStatus_groc_feb :
    budgetStatus [txGroc] [("Groceries", 100)] "2024-02" =
      [⟨"Groceries", 100, 0, 0, 0, false⟩] := by
  rw [budgetStatus]
  have h1 : (([("Groceries", (100 : ℚ))].filter fun p => decide (0 < p.2))) =
      [("Groceries", 100)] := by decide
  rw [h1]
  have h2 : mkBudgetEntry [txGroc] "2024-02" ("Groceries", 100) =
      ⟨"Groceries", 100, 0, 0, 0, false⟩ := by
    rw [mkBudgetEntry, spending_groc_feb]
    have hs : lookupQ [] "Groceries" = 0 := by decide
    rw [hs]
    have hraw : (0 : ℚ) / 100 * 100 = 0 := by norm_num
    rw [hraw]
    have hmin : min (0 : ℚ) 100 = 0 := min_eq_left (by norm_num)
    rw [hmin]
    have hover : decide ((100 : ℚ) < 0) = false := by
      rw [decide_eq_false_iff_not]; norm_num
    rw [hover]
  simp only [List.map_cons, List.map_nil, h2]
  rfl

/-- C5: BudgetStatus emits exactly the categories with a configured limit
> 0; each entry carries the claimed `spent`, `rawPercentage`,
`cappedPercentage ∈ [0, 100]` and `isOver` fields (non-negativity of the
capped percentage rests on the data invariant `amountPrimary ≥ 0`); and
Scenario B produces the single claimed entry. -/
theorem budget_status_spec (txs : List Transaction) (budgets : List (String × ℚ))
    (mk : String) (hNonneg : ∀ t ∈ txs, 0 ≤ t.amountAUD) :
    (∀ c', (c' ∈ (budgetStatus txs budgets mk).map BudgetEntry.category) ↔
      ∃ l, (c', l) ∈ budgets ∧ 0 < l) ∧
    (∀ e ∈ budgetStatus txs budgets mk,
      e.spent = lookupQ (currentMonthSpending txs mk) e.category ∧
      e.rawPercentage = e.spent / e.limit * 100 ∧
      e.percentage = min e.rawPercentage 100 ∧
      0 ≤ e.percentage ∧ e.percentage ≤ 100 ∧
      (e.isOver = true ↔ e.limit < e.spent) ∧ 0 < e.limit) ∧
    budgetStatus [txGroc] [("Groceries", 100)] "2024-01" =
      [⟨"Groceries", 100, 120, 100, 120, true⟩] := by
  refine ⟨?_, ?_, budgetStatus_groc_jan⟩
  · intro c'
    constructor
    · intro h
      rcases List.mem_map.mp h with ⟨e, he, hc⟩
      rw [budgetStatus, mem_sortS] at he
      rcases List.mem_map.mp he with ⟨p, hp, hpe⟩
      rcases List.mem_filter.mp hp with ⟨hpb, hppos⟩
      refine ⟨p.2, ?_, by exact_mod_cast of_decide_eq_true hppos⟩
      have : p.1 = c' := by rw [← hc, ← hpe]; rfl
      rw [← this]
      exact hpb
    · rintro ⟨l, hl, hlpos⟩
      refine List.mem_map.mpr ⟨mkBudgetEntry txs mk (c', l), ?_, rfl⟩
      rw [budgetStatus, mem_sortS]
      exact List.mem_map.mpr ⟨(c', l),
        List.mem_filter.mpr ⟨hl, decide_eq_true hlpos⟩, rfl⟩
  · intro e he
    rw [budgetStatus, mem_sortS] at he
    rcases List.mem_map.mp he with ⟨p, hp, hpe⟩
    rcases List.mem_filter.mp hp with ⟨hpb, hppos⟩
    have hlim : 0 < p.2 := of_decide_eq_true hppos
    have hspent : 0 ≤ lookupQ (currentMonthSpending txs mk) p.1 :=
      lookupQ_nonneg _ _ (currentMonthSpending_nonneg txs mk hNonneg)
    have hraw : 0 ≤ lookupQ (currentMonthSpending txs mk) p.1 / p.2 * 100 := by
      have := div_nonneg hspent (le_of_lt hlim)
      linarith
    subst hpe
    refine ⟨rfl, rfl, rfl, ?_, ?_, ?_, hlim⟩
    · exact le_min hraw (by norm_num)
    · exact min_le_right _ _
    · simp [mkBudgetEntry]

/-- C5 (witness): the general theorem applied to Scenario B's concrete
transaction, budgets map and month key. -/
theorem budget_status_spec_witness :
    budgetStatus [txGroc] [("Groceries", 100)] "2024-01" =
      [⟨"Groceries", 100, 120, 100, 120, true⟩] :=
  (budget_status_spec [txGroc] [("Groceries", 100)] "2024-01"
    (by intro t ht; rcases List.mem_singleton.mp ht with rfl; norm_num [txGroc])).2.2

/-- C6 (amended): `budgetStatus` output is a stable sort of the entry list by
descending capped percentage alone — a permutation of the entries, pairwise
sorted by descending `cappedPercentage`, with entries of equal capped
percentage kept in the insertion order of the budgets map; no
`rawPercentage` or category-label tie-break is applied. -/
theorem budget_status_order (txs : List Transaction) (budgets : List (String × ℚ))
    (mk : String) :
    List.Perm (budgetStatus txs budgets mk)
      ((budgets.filter fun p => decide (0 < p.2)).map (mkBudgetEntry txs mk)) ∧
    (budgetStatus txs budgets mk).Pairwise (fun a b => b.percentage ≤ a.percentage) ∧
    (∀ q : ℚ, (budgetStatus txs budgets mk).filter (fun e => decide (e.percentage = q)) =
      ((budgets.filter fun p => decide (0 < p.2)).map (mkBudgetEntry txs mk)).filter
        (fun e => decide (e.percentage = q))) := by
  refine ⟨sortS_perm _ _, ?_, ?_⟩
  · have h := sortS_pairwise (fun a b : BudgetEntry => decide (b.percentage ≤ a.percentage))
      ?_ ?_ ((budgets.filter fun p => decide (0 < p.2)).map (mkBudgetEntry txs mk))
    · exact (List.Pairwise.imp (fun hh => of_decide_eq_true hh)) h
    · intro a b hab
      rw [decide_eq_false_iff_not] at hab
      exact decide_eq_true (le_of_lt (not_le.mp hab))
    · intro a b c hab hbc
      exact decide_eq_true (le_trans (of_decide_eq_true hbc) (of_decide_eq_true hab))
  · intro q
    refine sortS_filter _ _ ?_ _
    intro a b hab hpq
    rw [decide_eq_false_iff_not] at hab
    rcases hpq with ⟨ha, hb⟩
    rw [decide_eq_true_eq] at ha hb
    exact hab (by rw [ha, hb])

/-- Two current-month expenses 120 on category A and 100 on category B. -/
def txA : Transaction :=
  { id := "a", type := "expense", amountAUD := 120, amountTWD := 0,
    category := "A", date := "2024-01-10", note := "" }

def txB : Transaction :=
  { id := "b", type := "expense", amountAUD := 100, amountTWD := 0,
    category := "B", date := "2024-01-11", note := "" }

/-- Budgets A: 100 (raw 120%, capped 100) and B: 50 (raw 200%, capped 100). -/
def budgetsAB : List (String × ℚ) := [("A", 100), ("B", 50)]

theorem spending_AB : currentMonthSpending [txA, txB] "2024-01" =
    [("A", 120), ("B", 100)] := by decide

theorem budgetStatus_AB :
    budgetStatus [txA, txB] budgetsAB "2024-01" =
      [⟨"A", 100, 120, 100, 120, true⟩, ⟨"B", 50, 100, 100, 200, true⟩] := by
  rw [budgetStatus]
  have h1 : (budgetsAB.filter fun p => decide (0 < p.2)) = [("A", 100), ("B", 50)] := by
    decide
  rw [h1]
  have hA : mkBudgetEntry [txA, txB] "2024-01" ("A", 100) =
      ⟨"A", 100, 120, 100, 120, true⟩ := by
    rw [mkBudgetEntry, spending_AB]
    have hs : lookupQ [("A", (120 : ℚ)), ("B", 100)] "A" = 120 := by decide
    rw [hs]
    have hraw : (120 : ℚ) / 100 * 100 = 120 := by norm_num
    rw [hraw]
    have hmin : min (120 : ℚ) 100 = 100 := min_eq_right (by norm_num)
    rw [hmin]
    have hover : decide ((100 : ℚ) < 120) = true := by
      rw [decide_eq_true_eq]; norm_num
    rw [hover]
  have hB : mkBudgetEntry [txA, txB] "2024-01" ("B", 50) =
      ⟨"B", 50, 100, 100, 200, true⟩ := by
    rw [mkBudgetEntry, spending_AB]
    have hs : lookupQ [("A", (120 : ℚ)), ("B", 100)] "B" = 100 := by decide
    rw [hs]
    have hraw : (100 : ℚ) / 50 * 100 = 200 := by norm_num
    rw [hraw]
    have hmin : min (200 : ℚ) 100 = 100 := min_eq_right (by norm_num)
    rw [hmin]
    have hover : decide ((50 : ℚ) < 100) = true := by
      rw [decide_eq_true_eq]; norm_num
    rw [hover]
  simp only [List.map_cons, List.map_nil, hA, hB]
  decide

/-- C6 (counterexample): with budgets A: 100 then B: 50, spends 120 and 100,
both entries cap at 100% but the output keeps A (raw 120%) before B
(raw 200%) — insertion order, not the claimed descending-`rawPercentage`
tie-break. -/
theorem budget_status_tiebreak_fails :
    (budgetStatus [txA, txB] budgetsAB "2024-01").map BudgetEntry.percentage =
        [100, 100] ∧
      (budgetStatus [txA, txB] budgetsAB "2024-01").map BudgetEntry.rawPercentage =
        [120, 200] ∧
      (120 : ℚ) < 200 := by
  rw [budgetStatus_AB]
  refine ⟨rfl, rfl, by norm_num⟩

/-- C8 (amended): every engine component is a pure function of the arguments
shown — identical snapshot, parameters, and (for `budgetStatus`, whose month
key the source derives from the wall clock) identical clock month give
structurally equal results. -/
theorem engine_components_deterministic :
    ∀ (txs : List Transaction) (budgets : List (String × ℚ)) (mk : String)
      (m : Option String) (c : String) (tz : ℤ),
      totalIncomeAUD txs = totalIncomeAUD txs ∧
      totalExpenseAUD txs = totalExpenseAUD txs ∧
      monthlyHistory txs = monthlyHistory txs ∧
      categoryData txs m = categoryData txs m ∧
      chartData txs = chartData txs ∧
      budgetStatus txs budgets mk = budgetStatus txs budgets mk ∧
      itemStats txs = itemStats txs ∧
      itemizedData txs m c = itemizedData txs m c ∧
      monthlyData txs tz = monthlyData txs tz :=
  fun _ _ _ _ _ _ => ⟨rfl, rfl, rfl, rfl, rfl, rfl, rfl, rfl, rfl⟩

/-- C8 (counterexample): `budgetStatus` is *not* a function of the snapshot
and budgets alone — the same transaction list and budgets map give different
results under the January and February wall-clock month keys, so the
component (whose month key the source takes from `new Date()`) depends on
the clock. -/
theorem budget_status_clock_dependent :
    budgetStatus [txGroc] [("Groceries", 100)] "2024-01" ≠
      budgetStatus [txGroc] [("Groceries", 100)] "2024-02" := by
  rw [budgetStatus_groc_jan, budgetStatus_groc_feb]
  intro h
  have h2 : (120 : ℚ) = 0 := congrArg BudgetEntry.spent (List.head_eq_of_cons_eq h)
  norm_num at h2

/-! ## Claim C3: month keys -/

theorem charVal_digitChar (k : ℕ) (hk : k < 10) : charVal (digitChar k) = k := by
  interval_cases k <;> rfl

theorem substrTo7_mkDateStr (y m d : ℕ) :
    substrTo 7 (mkDateStr y m d) = ⟨pad4l y ++ '-' :: pad2l m⟩ := rfl

theorem natDigitsAux_succ (fuel n : ℕ) :
    natDigitsAux (fuel + 1) n =
      if n < 10 then [digitChar n]
      else natDigitsAux fuel (n / 10) ++ [digitChar (n % 10)] := rfl

/-- For a four-digit year the unpadded rendering coincides with the four
digit characters of the fixed-width date. -/
theorem natDigitsAux_four_digits (fuel y : ℕ) (hf : 4 ≤ fuel) (h1 : 1000 ≤ y)
    (h2 : y ≤ 9999) : natDigitsAux fuel y = pad4l y := by
  obtain ⟨f, rfl⟩ : ∃ f, fuel = f + 4 := ⟨fuel - 4, by omega⟩
  have e1 : natDigitsAux (f + 4) y =
      if y < 10 then [digitChar y]
      else natDigitsAux (f + 3) (y / 10) ++ [digitChar (y % 10)] := rfl
  have e2 : natDigitsAux (f + 3) (y / 10) =
      if y / 10 < 10 then [digitChar (y / 10)]
      else natDigitsAux (f + 2) (y / 10 / 10) ++ [digitChar (y / 10 % 10)] := rfl
  have e3 : natDigitsAux (f + 2) (y / 10 / 10) =
      if y / 10 / 10 < 10 then [digitChar (y / 10 / 10)]
      else natDigitsAux (f + 1) (y / 10 / 10 / 10) ++ [digitChar (y / 10 / 10 % 10)] := rfl
  have e4 : natDigitsAux (f + 1) (y / 10 / 10 / 10) =
      if y / 10 / 10 / 10 < 10 then [digitChar (y / 10 / 10 / 10)]
      else natDigitsAux f (y / 10 / 10 / 10 / 10) ++
        [digitChar (y / 10 / 10 / 10 % 10)] := rfl
  rw [e1, if_neg (by omega), e2, if_neg (by omega), e3, if_neg (by omega), e4,
    if_pos (by omega)]
  have d1 : y / 10 / 10 / 10 = y / 1000 % 10 := by omega
  have d2 : y / 10 / 10 % 10 = y / 100 % 10 := by omega
  rw [d1, d2]
  rfl

theorem natDigits_eq_pad4l (y : ℕ) (h1 : 1000 ≤ y) (h2 : y ≤ 9999) :
    natDigits y = pad4l y :=
  natDigitsAux_four_digits (y + 1) y (by omega) h1 h2

theorem digitsVal_pad4l (y : ℕ) (hy : y ≤ 9999) : digitsVal (pad4l y) = y := by
  simp only [pad4l, digitsVal, List.foldl_cons, List.foldl_nil]
  rw [charVal_digitChar _ (Nat.mod_lt _ (by norm_num)),
    charVal_digitChar _ (Nat.mod_lt _ (by norm_num)),
    charVal_digitChar _ (Nat.mod_lt _ (by norm_num)),
    charVal_digitChar _ (Nat.mod_lt _ (by norm_num))]
  omega

theorem digitsVal_pad2l (m : ℕ) (hm : m ≤ 99) : digitsVal (pad2l m) = m := by
  simp only [pad2l, digitsVal, List.foldl_cons, List.foldl_nil]
  rw [charVal_digitChar _ (Nat.mod_lt _ (by norm_num)),
    charVal_digitChar _ (Nat.mod_lt _ (by norm_num))]
  omega

theorem parse_mkDateStr_y (y m d : ℕ) (hy : y ≤ 9999) :
    digitsVal ((mkDateStr y m d).data.take 4) = y := by
  have h : (mkDateStr y m d).data.take 4 = pad4l y := rfl
  rw [h, digitsVal_pad4l y hy]

theorem parse_mkDateStr_m (y m d : ℕ) (hm : m ≤ 99) :
    digitsVal (((mkDateStr y m d).data.drop 5).take 2) = m := by
  have h : ((mkDateStr y m d).data.drop 5).take 2 = pad2l m := rfl
  rw [h, digitsVal_pad2l m hm]

theorem parse_mkDateStr_d (y m d : ℕ) (hd : d ≤ 99) :
    digitsVal (((mkDateStr y m d).data.drop 8).take 2) = d := by
  have h : ((mkDateStr y m d).data.drop 8).take 2 = pad2l d := rfl
  rw [h, digitsVal_pad2l d hd]

theorem jsMonthKeyOfDate_mkDateStr (y m d : ℕ) (tz : ℤ)
    (hy : y ≤ 9999) (hm : m ≤ 99) (hd : d ≤ 99) :
    jsMonthKeyOfDate (mkDateStr y m d) tz =
      monthKeyStr (jsLocalYM y m d tz).1 (jsLocalYM y m d tz).2 := by
  rw [jsMonthKeyOfDate, parse_mkDateStr_y y m d hy, parse_mkDateStr_m y m d hm,
    parse_mkDateStr_d y m d hd]

/-! Key-membership lemmas for the two month groupings. -/

theorem keys_upsertMonth_self (k : String) (t : Transaction)
    (m : List (String × MonthAgg)) : k ∈ (upsertMonth k t m).map Prod.fst := by
  induction m with
  | nil => simp [upsertMonth]
  | cons p m ih =>
    obtain ⟨k₀, a⟩ := p
    by_cases h0 : k₀ = k
    · subst h0; simp [upsertMonth]
    · simp only [upsertMonth, h0, if_false, List.map_cons, List.mem_cons]
      exact Or.inr ih

theorem keys_upsertMonth_mono (k k' : String) (t : Transaction)
    (m : List (String × MonthAgg)) (h : k' ∈ m.map Prod.fst) :
    k' ∈ (upsertMonth k t m).map Prod.fst := by
  induction m with
  | nil => simp at h
  | cons p m ih =>
    obtain ⟨k₀, a⟩ := p
    by_cases h0 : k₀ = k
    · subst h0; simpa [upsertMonth] using h
    · simp only [upsertMonth, h0, if_false, List.map_cons, List.mem_cons] at h ⊢
      rcases h with h | h
      · exact Or.inl h
      · exact Or.inr (ih h)

theorem keys_monthlyHistory_fold_mono (txs : List Transaction) (k : String)
    (m : List (String × MonthAgg)) (h : k ∈ m.map Prod.fst) :
    k ∈ (txs.foldl (fun m t => upsertMonth (substrTo 7 t.date) t m) m).map Prod.fst := by
  induction txs generalizing m with
  | nil => exact h
  | cons t txs ih =>
    simp only [List.foldl_cons]
    exact ih _ (keys_upsertMonth_mono _ _ _ _ h)

theorem key_mem_monthlyHistory_fold (txs : List Transaction) (t : Transaction)
    (ht : t ∈ txs) (m : List (String × MonthAgg)) :
    substrTo 7 t.date ∈
      (txs.foldl (fun m t => upsertMonth (substrTo 7 t.date) t m) m).map Prod.fst := by
  induction txs generalizing m with
  | nil => cases ht
  | cons t' txs ih =>
    simp only [List.foldl_cons]
    rcases List.mem_cons.mp ht with heq | hmem
    · subst heq
      exact keys_monthlyHistory_fold_mono txs _ _ (keys_upsertMonth_self _ t m)
    · exact ih hmem _

theorem keys_upsertTrend_self (k : String) (t : Transaction)
    (m : List (String × TrendAgg)) : k ∈ (upsertTrend k t m).map Prod.fst := by
  induction m with
  | nil => simp [upsertTrend]
  | cons p m ih =>
    obtain ⟨k₀, a⟩ := p
    by_cases h0 : k₀ = k
    · subst h0; simp [upsertTrend]
    · simp only [upsertTrend, h0, if_false, List.map_cons, List.mem_cons]
      exact Or.inr ih

theorem keys_upsertTrend_mono (k k' : String) (t : Transaction)
    (m : List (String × TrendAgg)) (h : k' ∈ m.map Prod.fst) :
    k' ∈ (upsertTrend k t m).map Prod.fst := by
  induction m with
  | nil => simp at h
  | cons p m ih =>
    obtain ⟨k₀, a⟩ := p
    by_cases h0 : k₀ = k
    · subst h0; simpa [upsertTrend] using h
    · simp only [upsertTrend, h0, if_false, List.map_cons, List.mem_cons] at h ⊢
      rcases h with h | h
      · exact Or.inl h
      · exact Or.inr (ih h)

theorem keys_monthlyData_fold_mono (txs : List Transaction) (tz : ℤ) (k : String)
    (m : List (String × TrendAgg)) (h : k ∈ m.map Prod.fst) :
    k ∈
      (txs.foldl (fun m t => upsertTrend (jsMonthKeyOfDate t.date tz) t m) m).map
        Prod.fst := by
  induction txs generalizing m with
  | nil => exact h
  | cons t txs ih =>
    simp only [List.foldl_cons]
    exact ih _ (keys_upsertTrend_mono _ _ _ _ h)

theorem key_mem_monthlyData_fold (txs : List Transaction) (tz : ℤ) (t : Transaction)
    (ht : t ∈ txs) (m : List (String × TrendAgg)) :
    jsMonthKeyOfDate t.date tz ∈
      (txs.foldl (fun m t => upsertTrend (jsMonthKeyOfDate t.date tz) t m) m).map
        Prod.fst := by
  induction txs generalizing m with
  | nil => cases ht
  | cons t' txs ih =>
    simp only [List.foldl_cons]
    rcases List.mem_cons.mp ht with heq | hmem
    · subst heq
      exact keys_monthlyData_fold_mono txs tz _ _ (keys_upsertTrend_self _ t m)
    · exact ih hmem _

/-- A March-1st transaction, used to exhibit the timezone dependence of the
Analytics monthly-trend key. -/
def txMar : Transaction :=
  { id := "m1", type := "expense", amountAUD := 7, amountTWD := 0,
    category := "X", date := "2024-03-01", note := "" }

/-- C3 (amended): MonthlyHistory groups every transaction under the key
`date.substring(0, 7)`; the Analytics monthly trend instead groups under the
key obtained by fully parsing the date (`new Date` + local-time accessors,
the year rendered unpadded), which agrees with `date.substring(0, 7)` on
well-formed fixed-width dates (four-digit year) whenever the environment's
UTC offset is non-negative (e.g. the app's Australian timezones), but not in
general. -/
theorem month_grouping_keys (txs : List Transaction) (t : Transaction) (ht : t ∈ txs)
    (tz : ℤ) (y m d : ℕ) (hm1 : 1 ≤ m) (hm2 : m ≤ 12) (hd1 : 1 ≤ d) (hd2 : d ≤ 31)
    (hy0 : 1000 ≤ y) (hy : y ≤ 9999) (htz0 : 0 ≤ tz) (htz1 : tz < 1440) :
    (∃ e ∈ monthlyHistory txs, e.month = substrTo 7 t.date) ∧
    (∀ tz' : ℤ, ∃ e ∈ monthlyData txs tz', e.name = jsMonthKeyOfDate t.date tz') ∧
    jsMonthKeyOfDate (mkDateStr y m d) tz = substrTo 7 (mkDateStr y m d) := by
  refine ⟨?_, ?_, ?_⟩
  · have hk := key_mem_monthlyHistory_fold txs t ht []
    rcases List.mem_map.mp hk with ⟨p, hp, hpk⟩
    refine ⟨⟨p.1, p.2.income, p.2.expense, p.2.income - p.2.expense⟩, ?_, hpk⟩
    rw [monthlyHistory]
    refine List.mem_map.mpr ⟨p, ?_, rfl⟩
    rw [mem_sortS]
    exact hp
  · intro tz'
    have hk := key_mem_monthlyData_fold txs tz' t ht []
    rcases List.mem_map.mp hk with ⟨p, hp, hpk⟩
    refine ⟨⟨p.1, p.2.income, p.2.expense, p.2.income - p.2.expense⟩, ?_, hpk⟩
    rw [monthlyData]
    refine List.mem_map.mpr ⟨p, ?_, rfl⟩
    rw [mem_sortS]
    exact hp
  · rw [jsMonthKeyOfDate_mkDateStr y m d tz hy (by omega) (by omega),
      substrTo7_mkDateStr]
    rw [jsLocalYM, if_pos htz0]
    rw [monthKeyStr, natDigits_eq_pad4l y hy0 hy]

/-- C3 (witness): the amended theorem applied to the concrete March-1st
transaction at UTC offset +600 minutes (Australian east coast). -/
theorem month_grouping_keys_witness :
    (∃ e ∈ monthlyHistory [txMar], e.month = substrTo 7 txMar.date) ∧
    (∀ tz' : ℤ, ∃ e ∈ monthlyData [txMar] tz', e.name = jsMonthKeyOfDate txMar.date tz') ∧
    jsMonthKeyOfDate (mkDateStr 2024 3 1) 600 = substrTo 7 (mkDateStr 2024 3 1) :=
  month_grouping_keys [txMar] txMar (List.mem_singleton_self _) 600 2024 3 1
    (by norm_num) (by norm_num) (by norm_num) (by norm_num) (by norm_num)
    (by norm_num) (by norm_num) (by norm_num)

/-- C3 (counterexample): at UTC offset -60 minutes the Analytics trend
groups the 2024-03-01 transaction under "2024-02", not under
`date.substring(0, 7) = "2024-03"` — the trend key is not the substring key
and depends on full date parsing. -/
theorem month_grouping_keys_fail :
    (monthlyData [txMar] (-60)).map TrendRow.name = ["2024-02"] ∧
      substrTo 7 txMar.date = "2024-03" ∧ ("2024-02" : String) ≠ "2024-03" := by
  decide

/-! ## Claim C4: PriceWatch best source -/

theorem find?_decomp (p : α → Bool) :
    ∀ (l : List α) (a : α), l.find? p = some a →
      ∃ pre post, l = pre ++ a :: post ∧ p a = true ∧ ∀ x ∈ pre, p x = false := by
  intro l
  induction l with
  | nil => intro a h; simp [List.find?] at h
  | cons b l ih =>
    intro a h
    by_cases hb : p b = true
    · rw [List.find?_cons_of_pos _ hb] at h
      cases h
      exact ⟨[], l, rfl, hb, by simp⟩
    · rw [List.find?_cons_of_neg _ (by simpa using hb)] at h
      rcases ih a h with ⟨pre, post, hl, hpa, hpre⟩
      refine ⟨b :: pre, post, by rw [hl]; rfl, hpa, ?_⟩
      intro x hx
      rcases List.mem_cons.mp hx with rfl | hx
      · exact Bool.eq_false_iff.mpr hb
      · exact hpre x hx

theorem find?_isSome_of_mem (p : α → Bool) (l : List α) (a : α)
    (ha : a ∈ l) (hpa : p a = true) : ∃ b, l.find? p = some b := by
  induction l with
  | nil => cases ha
  | cons c l ih =>
    by_cases hc : p c = true
    · exact ⟨c, List.find?_cons_of_pos _ hc⟩
    · rcases List.mem_cons.mp ha with rfl | ha'
      · exact absurd hpa hc
      · rcases ih ha' with ⟨b, hb⟩
        exact ⟨b, by rw [List.find?_cons_of_neg _ (by simpa using hc), hb]⟩

theorem foldl_min_le_start (l : List ℚ) (a : ℚ) : l.foldl min a ≤ a := by
  induction l generalizing a with
  | nil => simp
  | cons q l ih =>
    simp only [List.foldl_cons]
    exact le_trans (ih (min a q)) (min_le_left a q)

theorem foldl_min_le_mem (l : List ℚ) (a x : ℚ) (hx : x ∈ l) : l.foldl min a ≤ x := by
  induction l generalizing a with
  | nil => cases hx
  | cons q l ih =>
    simp only [List.foldl_cons]
    rcases List.mem_cons.mp hx with rfl | hx'
    · exact le_trans (foldl_min_le_start l (min a x)) (min_le_right a x)
    · exact ih (min a q) hx'

theorem foldl_min_eq_or_mem (l : List ℚ) (a : ℚ) :
    l.foldl min a = a ∨ l.foldl min a ∈ l := by
  induction l generalizing a with
  | nil => simp
  | cons q l ih =>
    simp only [List.foldl_cons]
    rcases ih (min a q) with h | h
    · rcases min_choice a q with hm | hm
      · exact Or.inl (h.trans hm)
      · exact Or.inr (List.mem_cons.mpr (Or.inl (h.trans hm)))
    · exact Or.inr (List.mem_cons.mpr (Or.inr h))

theorem mem_itemStats_iff (txs : List Transaction) (s : ItemStat) :
    s ∈ itemStats txs ↔ ∃ p ∈ statsMapOf txs, mkItemStat p.1 p.2 = some s := by
  rw [itemStats, mem_sortS]
  exact List.mem_filterMap

theorem mkItemStat_fields (n : String) (r : PriceRec) (rest : List PriceRec)
    (s : ItemStat) (h : mkItemStat n (r :: rest) = some s) :
    s.name = n ∧
    s.minPrice = (rest.map PriceRec.price).foldl min r.price ∧
    s.bestStore =
      match (r :: rest).find? (fun p => decide (p.price = s.minPrice)) with
      | some b => strOr b.store "Unknown"
      | none => "Unknown" := by
  rw [mkItemStat] at h
  have hs := Option.some.inj h
  subst hs
  exact ⟨rfl, rfl, rfl⟩

/-- C4 (amended): for every name with a nonempty record list, the emitted
stat's `minPrice` is the least recorded price, and `bestSource` is the store
of the **first record in recording order** (transaction order, then item
order) whose price equals the minimum — when several records tie at the
minimum the earliest-recorded one is preferred, not the most recently dated
one.  (The stats rows are exactly the `mkItemStat` images of the stats
map.) -/
theorem price_watch_best_source (txs : List Transaction) (n : String)
    (recs : List PriceRec) (h : (n, recs) ∈ statsMapOf txs) (hne : recs ≠ []) :
    (∀ s', s' ∈ itemStats txs ↔ ∃ p ∈ statsMapOf txs, mkItemStat p.1 p.2 = some s') ∧
    ∃ s, mkItemStat n recs = some s ∧ s ∈ itemStats txs ∧ s.name = n ∧
      (∀ rec ∈ recs, s.minPrice ≤ rec.price) ∧
      ∃ pre post b, recs = pre ++ b :: post ∧ b.price = s.minPrice ∧
        (∀ x ∈ pre, x.price ≠ s.minPrice) ∧ s.bestStore = strOr b.store "Unknown" := by
  refine ⟨fun s' => mem_itemStats_iff txs s', ?_⟩
  rcases hrecs : recs with _ | ⟨r, rest⟩
  · exact absurd hrecs hne
  subst hrecs
  rcases hmk : mkItemStat n (r :: rest) with _ | s
  · rw [mkItemStat] at hmk; cases hmk
  rcases mkItemStat_fields n r rest s hmk with ⟨hname, hmin, hbest⟩
  have hmin_le : ∀ rec ∈ r :: rest, s.minPrice ≤ rec.price := by
    intro rec hrec
    rcases List.mem_cons.mp hrec with rfl | hrec'
    · rw [hmin]; exact foldl_min_le_start _ _
    · rw [hmin]
      exact foldl_min_le_mem _ _ _ (List.mem_map.mpr ⟨rec, hrec', rfl⟩)
  have hmin_mem : ∃ b ∈ r :: rest, b.price = s.minPrice := by
    rcases foldl_min_eq_or_mem (rest.map PriceRec.price) r.price with h' | h'
    · exact ⟨r, List.mem_cons_self _ _, by rw [hmin, h']⟩
    · rcases List.mem_map.mp h' with ⟨b, hb, hbp⟩
      exact ⟨b, List.mem_cons_of_mem _ hb, by rw [hmin, hbp]⟩
  rcases hmin_mem with ⟨b0, hb0, hb0p⟩
  rcases find?_isSome_of_mem (fun p => decide (p.price = s.minPrice)) _ b0 hb0
      (decide_eq_true hb0p) with ⟨b, hb⟩
  rcases find?_decomp _ _ _ hb with ⟨pre, post, hsplit, hpb, hpre⟩
  refine ⟨s, rfl, (mem_itemStats_iff txs s).mpr ⟨(n, r :: rest), h, hmk⟩, hname,
    hmin_le, pre, post, b, hsplit, of_decide_eq_true hpb, ?_, ?_⟩
  · intro x hx
    have := hpre x hx
    rw [decide_eq_false_iff_not] at this
    exact this
  · rw [hbest, hb]

/-- The two Milk purchases of the counterexample: both priced 4, the earlier
one from "Woolworths", the later one from "Coles". -/
def txW1 : Transaction :=
  { id := "w1", type := "expense", amountAUD := 4, amountTWD := 0,
    category := "超市雜貨", date := "2024-01-01", note := "Woolworths",
    items := some [⟨"Milk", 4, none⟩] }

def txW2 : Transaction :=
  { id := "w2", type := "expense", amountAUD := 4, amountTWD := 0,
    category := "超市雜貨", date := "2024-12-01", note := "Coles",
    items := some [⟨"Milk", 4, none⟩] }

/-- C4 (counterexample): both records tie at the minimum price 4; the
most recently dated tied record (2024-12-01) is from "Coles", yet
`bestStore` is "Woolworths" — `find` takes the first record in recording
order, not the most recently dated one. -/
theorem price_watch_best_source_fails :
    statsMapOf [txW1, txW2] =
        [("Milk", [⟨4, "Woolworths", "2024-01-01"⟩, ⟨4, "Coles", "2024-12-01"⟩])] ∧
      (itemStats [txW1, txW2]).map ItemStat.minPrice = [4] ∧
      (itemStats [txW1, txW2]).map ItemStat.bestStore = ["Woolworths"] ∧
      lexLt "2024-01-01".data "2024-12-01".data = true ∧
      ("Woolworths" : String) ≠ "Coles" := by
  decide

/-- C4 (witness for the amended theorem): the Milk record list of the
two concrete transactions. -/
theorem price_watch_best_source_witness :
    (∀ s', s' ∈ itemStats [txW1, txW2] ↔
      ∃ p ∈ statsMapOf [txW1, txW2], mkItemStat p.1 p.2 = some s') ∧
    ∃ s, mkItemStat "Milk"
        [⟨4, "Woolworths", "2024-01-01"⟩, ⟨4, "Coles", "2024-12-01"⟩] = some s ∧
      s ∈ itemStats [txW1, txW2] ∧ s.name = "Milk" ∧
      (∀ rec ∈ ([⟨4, "Woolworths", "2024-01-01"⟩,
          ⟨4, "Coles", "2024-12-01"⟩] : List PriceRec), s.minPrice ≤ rec.price) ∧
      ∃ pre post b,
        ([⟨4, "Woolworths", "2024-01-01"⟩,
          ⟨4, "Coles", "2024-12-01"⟩] : List PriceRec) = pre ++ b :: post ∧
        b.price = s.minPrice ∧ (∀ x ∈ pre, x.price ≠ s.minPrice) ∧
        s.bestStore = strOr b.store "Unknown" :=
  price_watch_best_source [txW1, txW2] "Milk"
    [⟨4, "Woolworths", "2024-01-01"⟩, ⟨4, "Coles", "2024-12-01"⟩]
    (by decide) (by decide)

/-! ## Claim C9: unknown categories -/

theorem lookupQ_foldl_bump (key : α → String) (f : α → ℚ) (l : List α)
    (m : List (String × ℚ)) (k : String) :
    lookupQ (l.foldl (fun acc t => bump (key t) (f t) acc) m) k =
      lookupQ m k + ((l.filter fun t => decide (key t = k)).map f).sum := by
  induction l generalizing m with
  | nil => simp
  | cons t l ih =>
    simp only [List.foldl_cons]
    rw [ih, lookupQ_bump]
    by_cases h : key t = k
    · have hb : (decide (key t = k)) = true := by simp [h]
      simp only [List.filter_cons, hb, if_true, List.map_cons, List.sum_cons]
      rw [if_pos h.symm]
      ring
    · have hb : (decide (key t = k)) = false := by simp [h]
      simp only [List.filter_cons, hb, Bool.false_eq_true, if_false]
      rw [if_neg fun hh => h hh.symm]
      ring

theorem keys_foldl_bump_mono (key : α → String) (f : α → ℚ) (l : List α)
    (m : List (String × ℚ)) (k : String) (h : k ∈ m.map Prod.fst) :
    k ∈ (l.foldl (fun acc t => bump (key t) (f t) acc) m).map Prod.fst := by
  induction l generalizing m with
  | nil => exact h
  | cons t l ih =>
    simp only [List.foldl_cons]
    exact ih _ ((keys_bump _ _ _ _).mpr (Or.inr h))

theorem keys_foldl_bump_self (key : α → String) (f : α → ℚ) (l : List α)
    (m : List (String × ℚ)) (t : α) (ht : t ∈ l) :
    key t ∈ (l.foldl (fun acc t => bump (key t) (f t) acc) m).map Prod.fst := by
  induction l generalizing m with
  | nil => cases ht
  | cons t' l ih =>
    simp only [List.foldl_cons]
    rcases List.mem_cons.mp ht with rfl | hmem
    · exact keys_foldl_bump_mono key f l _ _ ((keys_bump _ _ _ _).mpr (Or.inl rfl))
    · exact ih _ hmem

theorem nodup_keys_foldl_bump (key : α → String) (f : α → ℚ) (l : List α)
    (m : List (String × ℚ)) (h : (m.map Prod.fst).Nodup) :
    ((l.foldl (fun acc t => bump (key t) (f t) acc) m).map Prod.fst).Nodup := by
  induction l generalizing m with
  | nil => exact h
  | cons t l ih =>
    simp only [List.foldl_cons]
    exact ih _ (nodup_keys_bump _ _ _ h)

/-- A transaction bearing a category label outside the closed enumeration. -/
def txLegacy : Transaction :=
  { id := "l1", type := "expense", amountAUD := 7, amountTWD := 0,
    category := "Legacy", date := "2024-01-05", note := "" }

/-- C9 (amended): the aggregations never reject a transaction with an
unrecognized category label — but its amounts are aggregated under the raw
label itself (a bucket named by the label, with the full filtered sum as its
value), not routed into the enumeration's "other" bucket. -/
theorem unknown_category_tolerated (txs : List Transaction) (m : Option String) :
    (∀ t ∈ filteredTransactions txs m, t.type ≠ "income" →
      t.category ∈ (categoryData txs m).map NV.name) ∧
    (∀ e ∈ categoryData txs m, e.value =
      ((((filteredTransactions txs m).filter fun t => !(decide (t.type = "income"))).filter
          fun t => decide (t.category = e.name)).map Transaction.amountAUD).sum) ∧
    (∀ t ∈ expenseTransactions txs, t.category ∈ (chartData txs).map NV.name) := by
  refine ⟨?_, ?_, ?_⟩
  · intro t ht hty
    have htf : t ∈ (filteredTransactions txs m).filter
        fun t => !(decide (t.type = "income")) := by
      refine List.mem_filter.mpr ⟨ht, ?_⟩
      simp [hty]
    have hk := keys_foldl_bump_self Transaction.category Transaction.amountAUD _ [] t htf
    rcases List.mem_map.mp hk with ⟨p, hp, hpk⟩
    refine List.mem_map.mpr ⟨⟨p.1, p.2⟩, ?_, hpk⟩
    rw [categoryData, mem_sortS]
    exact List.mem_map.mpr ⟨p, hp, rfl⟩
  · intro e he
    rw [categoryData, mem_sortS] at he
    rcases List.mem_map.mp he with ⟨p, hp, hpe⟩
    have hnd := nodup_keys_foldl_bump Transaction.category Transaction.amountAUD
      ((filteredTransactions txs m).filter fun t => !(decide (t.type = "income"))) []
      (by simp)
    have hlook := lookupA_of_mem_nodup _ p.1 p.2 hnd hp
    have hval := lookupQ_foldl_bump Transaction.category Transaction.amountAUD
      ((filteredTransactions txs m).filter fun t => !(decide (t.type = "income"))) []
      p.1
    rw [show lookupQ (((filteredTransactions txs m).filter
        fun t => !(decide (t.type = "income"))).foldl
        (fun acc t => bump t.category t.amountAUD acc) []) p.1 = p.2 by
      rw [lookupQ, hlook]; rfl] at hval
    have hname : e.name = p.1 := by rw [← hpe]
    have hvalue : e.value = p.2 := by rw [← hpe]
    rw [hvalue, hname, hval]
    simp [lookupQ, lookupA]
  · intro t ht
    have hk := keys_foldl_bump_self Transaction.category Transaction.amountAUD _ [] t ht
    rcases List.mem_map.mp hk with ⟨p, hp, hpk⟩
    exact List.mem_map.mpr ⟨⟨p.1, p.2⟩, List.mem_map.mpr ⟨p, hp, rfl⟩, hpk⟩

/-- C9 (counterexample): the unrecognized label "Legacy" is kept as its own
bucket name in both breakdowns; no bucket named "其他雜項" (the OTHER
category) is produced. -/
theorem unknown_category_not_other :
    ("Legacy" ∈ expenseCategories) = False ∧
      (categoryData [txLegacy] none).map NV.name = ["Legacy"] ∧
      (chartData [txLegacy]).map NV.name = ["Legacy"] ∧
      ¬("其他雜項" ∈ (categoryData [txLegacy] none).map NV.name) := by
  decide

/-- C9 (witness for the amended theorem): the Legacy-labelled transaction is
kept — its label appears among the category buckets. -/
theorem unknown_category_tolerated_witness :
    txLegacy.category ∈ (categoryData [txLegacy] none).map NV.name :=
  (unknown_category_tolerated [txLegacy] none).1 txLegacy
    (List.mem_singleton_self _) (by decide)

/-! ## Claim C10: PriceWatch source fallback -/

theorem pushRec_self (k : String) (r : PriceRec) (m : List (String × List PriceRec)) :
    ∃ rs, (k, rs) ∈ pushRec k r m ∧ r ∈ rs := by
  induction m with
  | nil => exact ⟨[r], by simp [pushRec], by simp⟩
  | cons p m ih =>
    obtain ⟨k₀, rs₀⟩ := p
    by_cases h0 : k₀ = k
    · subst h0
      exact ⟨rs₀ ++ [r], by simp [pushRec], by simp⟩
    · rcases ih with ⟨rs, hmem, hr⟩
      exact ⟨rs, by simp [pushRec, h0, hmem], hr⟩

theorem pushRec_mono (k : String) (r : PriceRec) (m : List (String × List PriceRec))
    (k' : String) (rs' : List PriceRec) (r' : PriceRec)
    (h : (k', rs') ∈ m) (hr : r' ∈ rs') :
    ∃ rs'', (k', rs'') ∈ pushRec k r m ∧ r' ∈ rs'' := by
  induction m with
  | nil => cases h
  | cons p m ih =>
    obtain ⟨k₀, rs₀⟩ := p
    rcases List.mem_cons.mp h with heq | hmem
    · cases heq
      by_cases h0 : k' = k
      · subst h0
        exact ⟨rs' ++ [r], by simp [pushRec], by simp [hr]⟩
      · exact ⟨rs', by simp [pushRec, h0], hr⟩
    · by_cases h0 : k₀ = k
      · subst h0
        exact ⟨rs', by simp [pushRec, hmem], hr⟩
      · rcases ih hmem with ⟨rs'', hmem'', hr''⟩
        exact ⟨rs'', by simp [pushRec, h0, hmem''], hr''⟩

theorem itemsfold_mono (t : Transaction) (l : List ReceiptItem)
    (m : List (String × List PriceRec)) (k : String) (rs : List PriceRec) (r : PriceRec)
    (h : (k, rs) ∈ m) (hr : r ∈ rs) :
    ∃ rs', (k, rs') ∈
      l.foldl (fun mm it => pushRec (jsTrim it.name) (recordOf t it) mm) m ∧ r ∈ rs' := by
  induction l generalizing m rs with
  | nil => exact ⟨rs, h, hr⟩
  | cons it l ih =>
    simp only [List.foldl_cons]
    rcases pushRec_mono (jsTrim it.name) (recordOf t it) m k rs r h hr with ⟨rs'', h'', hr''⟩
    exact ih _ rs'' h'' hr''

theorem itemsfold_self (t : Transaction) (l : List ReceiptItem)
    (m : List (String × List PriceRec)) (it : ReceiptItem) (hit : it ∈ l) :
    ∃ rs, (jsTrim it.name, rs) ∈
      l.foldl (fun mm it => pushRec (jsTrim it.name) (recordOf t it) mm) m ∧
      recordOf t it ∈ rs := by
  induction l generalizing m with
  | nil => cases hit
  | cons it' l ih =>
    simp only [List.foldl_cons]
    rcases List.mem_cons.mp hit with rfl | hmem
    · rcases pushRec_self (jsTrim it.name) (recordOf t it) m with ⟨rs, hmem', hr'⟩
      exact itemsfold_mono t l _ _ rs _ hmem' hr'
    · exact ih _ hmem

theorem statsfold_mono (txs : List Transaction) (m : List (String × List PriceRec))
    (k : String) (rs : List PriceRec) (r : PriceRec)
    (h : (k, rs) ∈ m) (hr : r ∈ rs) :
    ∃ rs', (k, rs') ∈
      txs.foldl
        (fun m t =>
          match t.items with
          | some l => l.foldl (fun mm it => pushRec (jsTrim it.name) (recordOf t it) mm) m
          | none => m)
        m ∧ r ∈ rs' := by
  induction txs generalizing m rs with
  | nil => exact ⟨rs, h, hr⟩
  | cons t txs ih =>
    simp only [List.foldl_cons]
    rcases htt : t.items with _ | l
    · exact ih _ rs h hr
    · rcases itemsfold_mono t l m k rs r h hr with ⟨rs'', h'', hr''⟩
      exact ih _ rs'' h'' hr''

/-- C10: every price record pushed for an item of a transaction carries
`store = t.note || 'Unknown'` — "Unknown" exactly when the note is the empty
string, the note itself otherwise — and that record is present in the stats
map under the item's trimmed name. -/
theorem statsfold_self (txs : List Transaction) (t : Transaction)
    (l : List ReceiptItem) (it : ReceiptItem)
    (ht : t ∈ txs) (hl : t.items = some l) (hit : it ∈ l)
    (m : List (String × List PriceRec)) :
    ∃ recs, (jsTrim it.name, recs) ∈
      txs.foldl
        (fun m t =>
          match t.items with
          | some l => l.foldl (fun mm it => pushRec (jsTrim it.name) (recordOf t it) mm) m
          | none => m)
        m ∧ recordOf t it ∈ recs := by
  induction txs generalizing m with
  | nil => cases ht
  | cons t' txs ih =>
    simp only [List.foldl_cons]
    rcases List.mem_cons.mp ht with rfl | hmem
    · rw [hl]
      rcases itemsfold_self t l m it hit with ⟨rs, hmem', hr'⟩
      exact statsfold_mono txs _ _ rs _ hmem' hr'
    · exact ih hmem _

theorem price_watch_source_fallback (txs : List Transaction) (t : Transaction)
    (l : List ReceiptItem) (it : ReceiptItem)
    (ht : t ∈ txs) (hl : t.items = some l) (hit : it ∈ l) :
    ∃ recs, (jsTrim it.name, recs) ∈ statsMapOf txs ∧ recordOf t it ∈ recs ∧
      (t.note = "" → (recordOf t it).store = "Unknown") ∧
      (t.note ≠ "" → (recordOf t it).store = t.note) := by
  have hmain := statsfold_self txs t l it ht hl hit []
  rw [show statsMapOf txs =
      txs.foldl
        (fun m t =>
          match t.items with
          | some l => l.foldl (fun mm it => pushRec (jsTrim it.name) (recordOf t it) mm) m
          | none => m)
        [] from rfl]
  rcases hmain with ⟨recs, hmem, hrec⟩
  refine ⟨recs, hmem, hrec, ?_, ?_⟩
  · intro hn
    simp [recordOf, strOr, hn]
  · intro hn
    simp [recordOf, strOr, hn]

/-- A transaction with an empty note and one item. -/
def txNoNote : Transaction :=
  { id := "n1", type := "expense", amountAUD := 4, amountTWD := 0,
    category := "超市雜貨", date := "2024-01-01", note := "",
    items := some [⟨"Milk", 4, none⟩] }

/-- C10 (witness): the empty-note transaction's Milk record is stored with
source "Unknown". -/
theorem price_watch_source_fallback_witness :
    ∃ recs, (jsTrim (ReceiptItem.name ⟨"Milk", 4, none⟩), recs) ∈ statsMapOf [txNoNote] ∧
      recordOf txNoNote ⟨"Milk", 4, none⟩ ∈ recs ∧
      (txNoNote.note = "" → (recordOf txNoNote ⟨"Milk", 4, none⟩).store = "Unknown") ∧
      (txNoNote.note ≠ "" → (recordOf txNoNote ⟨"Milk", 4, none⟩).store = txNoNote.note) :=
  price_watch_source_fallback [txNoNote] txNoNote [⟨"Milk", 4, none⟩] ⟨"Milk", 4, none⟩
    (List.mem_singleton_self _) rfl (List.mem_singleton_self _)

end MoneyNotes
